import Mathlib

/-!
# libartbase/base/os_linux.cc

A shallow embedding of the `OS` file helpers of `os_linux.cc` (namespace `art`).

The helpers are glue over four system calls (`stat`, `mkdir`, `unlink`, `open`), so the
development has two layers.

* An executable model of the part of the kernel the helpers talk to: a directory tree with
  permission bits, regular files backed by inodes, symbolic links, open file descriptions, path
  resolution (absolute and relative paths, repeated and trailing separators, `.` and `..`, a
  bound on the number of links followed), an `errno` cell and a log of the calls issued.
* The functions of `os_linux.cc`, transcribed statement by statement over that model.

What the model assumes: the calling process is the unprivileged owner of every node, so access
is decided by the owner bits (search permission for a lookup, write and search permission on
the directory to add or remove an entry); the file creation mask is zero; there are no limits on
name length, descriptors or space; nothing else changes the file system between two calls.
A path argument is a valid C string; `int` flag words and `mode_t` are natural numbers read as
bit patterns; `off_t` and `int64_t` sizes are integers, none is computed with.
-/

set_option autoImplicit false

namespace art

/-! ## C strings and `std::string` -/

/-- A C string: the bytes before the terminating NUL. -/
abbrev CStr := List Char

/-- The name of a directory entry. -/
abbrev Name := List Char

/-- The location of a node: the entry names leading to it from the root directory. -/
abbrev Loc := List Name

/-- The call `std::string::find_last_of(ch)`: index of the last occurrence, `none` for `npos`. -/
def find_last_of : CStr → Char → Option Nat
  | [], _ => none
  | x :: xs, ch =>
    match find_last_of xs ch with
    | some i => some (i + 1)
    | none => if x = ch then some 0 else none

/-- The call `std::string::substr(pos, len)` for `pos` within the string. -/
def substr (s : CStr) (pos len : Nat) : CStr := (s.drop pos).take len

/-! ## Constants of `<errno.h>`, `<fcntl.h>` and `<sys/stat.h>` (Linux, asm-generic) -/

abbrev ENOENT : Nat := 2
abbrev EIO : Nat := 5
abbrev EACCES : Nat := 13
abbrev EEXIST : Nat := 17
abbrev ENOTDIR : Nat := 20
abbrev EISDIR : Nat := 21
abbrev ELOOP : Nat := 40

abbrev O_RDONLY : Nat := 0
abbrev O_WRONLY : Nat := 1
abbrev O_RDWR : Nat := 2
abbrev O_ACCMODE : Nat := 3
abbrev O_CREAT : Nat := 0o100
abbrev O_TRUNC : Nat := 0o1000
abbrev O_NOFOLLOW : Nat := 0o400000
abbrev O_CLOEXEC : Nat := 0o2000000

abbrev S_IFMT : Nat := 0o170000
abbrev S_IFDIR : Nat := 0o040000
abbrev S_IFREG : Nat := 0o100000
abbrev S_IFLNK : Nat := 0o120000
abbrev S_IRUSR : Nat := 0o400
abbrev S_IWUSR : Nat := 0o200
abbrev S_IXUSR : Nat := 0o100
abbrev S_IRGRP : Nat := 0o040
abbrev S_IROTH : Nat := 0o004

/-- The permission bits of a mode (`07777`). -/
abbrev ALLPERMS : Nat := 0o7777

/-- The macro `S_ISREG`. -/
def S_ISREG (m : Nat) : Bool := (m &&& S_IFMT) == S_IFREG

/-- The macro `S_ISDIR`. -/
def S_ISDIR (m : Nat) : Bool := (m &&& S_IFMT) == S_IFDIR

/-- The macro `S_ISLNK`. -/
def S_ISLNK (m : Nat) : Bool := (m &&& S_IFMT) == S_IFLNK

/-- The limit on symbolic links followed during one path resolution. -/
abbrev SYMLOOP_MAX : Nat := 40

/-! ## The file system -/

/-- A directory entry. A directory carries the mode it was created with, a regular file the
number of its inode, a symbolic link the path text it contains. -/
inductive Node where
  | dir (mode : Nat)
  | reg (ino : Nat)
  | lnk (target : CStr)
  deriving DecidableEq, Repr

/-- The inode of a regular file: permission bits and content. -/
structure Inode where
  mode : Nat
  data : List Nat
  deriving DecidableEq, Repr

/-- An open file description, as referred to by a file descriptor. -/
inductive OFile where
  | file (ino : Nat)
  | dir (loc : Loc)
  deriving DecidableEq, Repr

/-- The state of the file system as seen by the calling process. Inodes are numbered by their
position in `inodes` and are never reclaimed, which is what the holder of a descriptor or of
another link observes. Descriptors are numbered by their position in `ofiles`. -/
structure FS where
  nodes : Loc → Option Node
  inodes : List Inode
  cwd : Loc
  ofiles : List OFile

/-- The part of `struct stat` the helpers read. -/
structure StatBuf where
  st_mode : Nat
  st_size : Int
  deriving DecidableEq, Repr, Inhabited

/-- The outcome of resolving a path: the node it names, or the directory that would hold it and
the missing entry name when only the last component is absent. -/
inductive Res where
  | found (loc : Loc) (node : Node)
  | absent (parent : Loc) (c : Name)
  deriving DecidableEq, Repr

/-- Split at every `/`. -/
def splitSlash : CStr → List Name
  | [] => [[]]
  | ch :: cs =>
    if ch = '/' then [] :: splitSlash cs
    else
      match splitSlash cs with
      | [] => [[ch]]
      | h :: t => (ch :: h) :: t

/-- The components of a path: the non-empty pieces between separators. -/
def components (name : CStr) : List Name :=
  (splitSlash name).filter (fun c => !c.isEmpty)

/-- The entry name `.`. -/
def dot : Name := ['.']

/-- The entry name `..`. -/
def dotdot : Name := ['.', '.']

/-- Walk the components `cs` from the directory `cur`. `onLink` continues the walk after a
symbolic link has been replaced by its text; `follow` says whether a link in the last position
is followed. Looking an entry up needs search permission on the directory. -/
def walkWith (fs : FS) (onLink : Loc → List Name → Except Nat Res) (follow : Bool) :
    Loc → List Name → Except Nat Res
  | cur, [] =>
    match fs.nodes cur with
    | some (.dir m) => .ok (.found cur (.dir m))
    | some _ => .error ENOTDIR
    | none => .error ENOENT
  | cur, c :: rest =>
    match fs.nodes cur with
    | some (.dir m) =>
      if m &&& S_IXUSR = 0 then .error EACCES
      else if c = dot then walkWith fs onLink follow cur rest
      else if c = dotdot then walkWith fs onLink follow cur.dropLast rest
      else
        match fs.nodes (cur ++ [c]) with
        | none => if rest = [] then .ok (.absent cur c) else .error ENOENT
        | some (.dir _) => walkWith fs onLink follow (cur ++ [c]) rest
        | some (.reg i) =>
          if rest = [] then .ok (.found (cur ++ [c]) (.reg i)) else .error ENOTDIR
        | some (.lnk t) =>
          if rest = [] ∧ follow = false then .ok (.found (cur ++ [c]) (.lnk t))
          else if t = [] then .error ENOENT
          else onLink (if t.head? = some '/' then [] else cur) (components t ++ rest)
    | some _ => .error ENOTDIR
    | none => .error ENOENT

/-- Path walk that follows at most `n` symbolic links. -/
def walkN (fs : FS) (follow : Bool) : Nat → Loc → List Name → Except Nat Res
  | 0 => walkWith fs (fun _ _ => .error ELOOP) follow
  | n + 1 => walkWith fs (walkN fs follow n) follow

/-- Whether the path text ends in a separator. -/
def trailingSlash (name : CStr) : Bool := name.getLast? == some '/'

/-- Path resolution. The empty path does not resolve; a leading `/` starts at the root, anything
else at the working directory; a trailing `/` follows a final link and demands a directory. -/
def FS.resolve (fs : FS) (follow : Bool) (name : CStr) : Except Nat Res :=
  if name = [] then .error ENOENT
  else
    match walkN fs (follow || trailingSlash name) SYMLOOP_MAX
        (if name.head? = some '/' then [] else fs.cwd) (components name) with
    | .ok (.found loc (.dir m)) => .ok (.found loc (.dir m))
    | .ok (.found loc node) =>
      if trailingSlash name then .error ENOTDIR else .ok (.found loc node)
    | r => r

/-- Metadata of a resolved node. -/
def FS.statNode (fs : FS) : Node → Except Nat StatBuf
  | .dir m => .ok { st_mode := S_IFDIR ||| (m &&& ALLPERMS), st_size := 4096 }
  | .reg ino =>
    match fs.inodes[ino]? with
    | some i => .ok { st_mode := S_IFREG ||| (i.mode &&& ALLPERMS), st_size := i.data.length }
    | none => .error EIO
  | .lnk t => .ok { st_mode := S_IFLNK ||| 0o777, st_size := t.length }

/-- The system call `stat(2)`: follows a symbolic link in the last position. -/
def FS.stat (fs : FS) (name : CStr) : Except Nat StatBuf :=
  match fs.resolve true name with
  | .error e => .error e
  | .ok (.absent _ _) => .error ENOENT
  | .ok (.found _ node) => fs.statNode node

/-- The system call `lstat(2)`: reports on a symbolic link itself. -/
def FS.lstat (fs : FS) (name : CStr) : Except Nat StatBuf :=
  match fs.resolve false name with
  | .error e => .error e
  | .ok (.absent _ _) => .error ENOENT
  | .ok (.found _ node) => fs.statNode node

/-- Replace one directory entry. -/
def FS.setNode (fs : FS) (loc : Loc) (n : Option Node) : FS :=
  { fs with nodes := fun q => if q = loc then n else fs.nodes q }

/-- Whether the caller may add or remove entries of the directory at `loc`. -/
def FS.mayWrite (fs : FS) (loc : Loc) : Bool :=
  match fs.nodes loc with
  | some (.dir m) => m &&& S_IWUSR != 0
  | _ => false

/-- The system call `mkdir(2)`. -/
def FS.mkdir (fs : FS) (name : CStr) (mode : Nat) : Except Nat FS :=
  match fs.resolve false name with
  | .error e => .error e
  | .ok (.found _ _) => .error EEXIST
  | .ok (.absent parent c) =>
    if fs.mayWrite parent then .ok (fs.setNode (parent ++ [c]) (some (.dir mode)))
    else .error EACCES

/-- The system call `unlink(2)`. -/
def FS.unlink (fs : FS) (name : CStr) : Except Nat FS :=
  match fs.resolve false name with
  | .error e => .error e
  | .ok (.absent _ _) => .error ENOENT
  | .ok (.found _ (.dir _)) => .error EISDIR
  | .ok (.found loc _) =>
    if fs.mayWrite loc.dropLast then .ok (fs.setNode loc none) else .error EACCES

/-- The system call `open(2)` for the flags the helpers pass. A new file gets a fresh inode;
`O_TRUNC` empties an existing regular file that is opened for writing. -/
def FS.open (fs : FS) (name : CStr) (flags mode : Nat) : Except Nat (Nat × FS) :=
  let acc := flags &&& O_ACCMODE
  match fs.resolve (flags &&& O_NOFOLLOW == 0) name with
  | .error e => .error e
  | .ok (.found _ (.lnk _)) => .error ELOOP
  | .ok (.found loc (.dir m)) =>
    if acc != O_RDONLY || flags &&& O_CREAT != 0 then .error EISDIR
    else if m &&& S_IRUSR = 0 then .error EACCES
    else .ok (fs.ofiles.length, { fs with ofiles := fs.ofiles ++ [.dir loc] })
  | .ok (.found _ (.reg ino)) =>
    match fs.inodes[ino]? with
    | none => .error EIO
    | some i =>
      if acc != O_WRONLY && i.mode &&& S_IRUSR = 0 then .error EACCES
      else if acc != O_RDONLY && i.mode &&& S_IWUSR = 0 then .error EACCES
      else
        .ok (fs.ofiles.length,
          { fs with
            inodes :=
              if flags &&& O_TRUNC != 0 && acc != O_RDONLY then
                fs.inodes.set ino { i with data := [] }
              else fs.inodes
            ofiles := fs.ofiles ++ [.file ino] })
  | .ok (.absent parent c) =>
    if flags &&& O_CREAT = 0 then .error ENOENT
    else if trailingSlash name then .error EISDIR
    else if fs.mayWrite parent then
      .ok (fs.ofiles.length,
        { nodes := fun q => if q = parent ++ [c] then some (.reg fs.inodes.length) else fs.nodes q
          inodes := fs.inodes ++ [{ mode := mode &&& ALLPERMS, data := [] }]
          cwd := fs.cwd
          ofiles := fs.ofiles ++ [.file fs.inodes.length] })
    else .error EACCES

/-! ## The process: file system, `errno`, and a log of the calls issued -/

/-- One entry of the call log. `enter` marks an invocation of `OS::CreateDirectory`; the others
record the system calls in the order they are issued. -/
inductive Event where
  | enter (name : CStr) (mode : Nat)
  | statCall (name : CStr)
  | mkdirCall (name : CStr) (mode : Nat)
  | unlinkCall (name : CStr)
  | openCall (name : CStr) (flags mode : Nat)
  deriving DecidableEq, Repr

/-- The state a helper runs in. -/
structure World where
  fs : FS
  errno : Nat
  trace : List Event

/-- Append to the call log. -/
def World.log (w : World) (e : Event) : World := { w with trace := w.trace ++ [e] }

/-- The call `stat(name, &st)`: return code and buffer; `errno` is set on failure only. -/
def sys_stat (w : World) (name : CStr) : (Int × StatBuf) × World :=
  match w.fs.stat name with
  | .ok st => ((0, st), w.log (.statCall name))
  | .error e => ((-1, default), { w.log (.statCall name) with errno := e })

/-- The call `mkdir(name, mode)`. -/
def sys_mkdir (w : World) (name : CStr) (mode : Nat) : Int × World :=
  match w.fs.mkdir name mode with
  | .ok fs1 => (0, { w.log (.mkdirCall name mode) with fs := fs1 })
  | .error e => (-1, { w.log (.mkdirCall name mode) with errno := e })

/-- The call `unlink(name)`. -/
def sys_unlink (w : World) (name : CStr) : Int × World :=
  match w.fs.unlink name with
  | .ok fs1 => (0, { w.log (.unlinkCall name) with fs := fs1 })
  | .error e => (-1, { w.log (.unlinkCall name) with errno := e })

/-- The call `open(name, flags, mode)`: the new descriptor, or `-1`. -/
def sys_open (w : World) (name : CStr) (flags mode : Nat) : Int × World :=
  match w.fs.open name flags mode with
  | .ok (fd, fs1) => ((fd : Int), { w.log (.openCall name flags mode) with fs := fs1 })
  | .error e => (-1, { w.log (.openCall name flags mode) with errno := e })

/-- Modelled from the spec: the file handle class `File` of `unix_file/fd_file.h`, which is not
among the sources. Constructing a handle opens the path with the given flags and permission mask
and keeps the usage-check request; the handle can tell whether it is actually open. -/
structure File where
  path : CStr
  flags : Nat
  mode : Nat
  check_usage : Bool
  fd : Int
  deriving DecidableEq, Repr

/-- Modelled from the spec: the constructor `File(path, flags, mode, check_usage)`. -/
def File.create (w : World) (path : CStr) (flags mode : Nat) (check_usage : Bool) :
    File × World :=
  let r := sys_open w path flags mode
  ({ path := path, flags := flags, mode := mode, check_usage := check_usage, fd := r.1 }, r.2)

/-- Modelled from the spec: the query `File::IsOpened`. -/
def File.IsOpened (f : File) : Bool := decide (0 ≤ f.fd)

/-- The result of a function that starts with a fatal `CHECK`. -/
inductive Run (α : Type) where
  | fatal
  | ret (a : α)

/-! ## `os_linux.cc` -/

namespace OS

/-- `File* OS::OpenFileWithFlags(const char* name, int flags, bool auto_flush)`.
A null `name` is `none`; a null result is `none`. -/
def OpenFileWithFlags (w : World) (name : Option CStr) (flags : Nat) (auto_flush : Bool) :
    Run (Option File × World) :=
  match name with
  | none => .fatal
  | some name =>
    let read_only := (flags &&& O_ACCMODE) == O_RDONLY
    let check_usage := !read_only && auto_flush
    let file := File.create w name flags (S_IRUSR ||| S_IWUSR ||| S_IRGRP ||| S_IROTH) check_usage
    if !file.1.IsOpened then .ret (none, file.2)
    else .ret (some file.1, file.2)

/-- `File* OS::OpenFileForReading(const char* name)`. The default of `auto_flush` is declared in
`os.h`, which is not among the sources, and is taken as a parameter. -/
def OpenFileForReading (auto_flush_default : Bool) (w : World) (name : Option CStr) :
    Run (Option File × World) :=
  OpenFileWithFlags w name O_RDONLY auto_flush_default

/-- `File* OS::OpenFileReadWrite(const char* name)`. -/
def OpenFileReadWrite (auto_flush_default : Bool) (w : World) (name : Option CStr) :
    Run (Option File × World) :=
  OpenFileWithFlags w name O_RDWR auto_flush_default

end OS

/-- `static File* CreateEmptyFile(const char* name, int extra_flags)`. -/
def CreateEmptyFile (auto_flush_default : Bool) (w : World) (name : CStr) (extra_flags : Nat) :
    Run (Option File × World) :=
  let w1 := (sys_unlink w name).2
  OS.OpenFileWithFlags w1 (some name) (O_CREAT ||| extra_flags) auto_flush_default

namespace OS

/-- `File* OS::CreateEmptyFile(const char* name)`. -/
def CreateEmptyFile (auto_flush_default : Bool) (w : World) (name : CStr) :
    Run (Option File × World) :=
  art.CreateEmptyFile auto_flush_default w name (O_RDWR ||| O_TRUNC)

/-- `File* OS::CreateEmptyFileWriteOnly(const char* name)`, the branch compiled on Linux. -/
def CreateEmptyFileWriteOnly (auto_flush_default : Bool) (w : World) (name : CStr) :
    Run (Option File × World) :=
  let flags := O_WRONLY ||| O_TRUNC ||| O_NOFOLLOW ||| O_CLOEXEC
  art.CreateEmptyFile auto_flush_default w name flags

/-- `bool OS::FileExists(const char* name, bool check_file_type)`. -/
def FileExists (w : World) (name : CStr) (check_file_type : Bool) : Bool × World :=
  let r := sys_stat w name
  if r.1.1 == 0 then
    if check_file_type then (S_ISREG r.1.2.st_mode, r.2)
    else (true, r.2)
  else (false, r.2)

/-- `bool OS::DirectoryExists(const char* name)`. -/
def DirectoryExists (w : World) (name : CStr) : Bool × World :=
  let r := sys_stat w name
  if r.1.1 == 0 then (S_ISDIR r.1.2.st_mode, r.2)
  else (false, r.2)

/-- `int64_t OS::GetFileSizeBytes(const char* name)`. -/
def GetFileSizeBytes (w : World) (name : CStr) : Int × World :=
  let r := sys_stat w name
  if r.1.1 == 0 then (r.1.2.st_size, r.2)
  else (-1, r.2)

end OS

namespace OS

/-- `bool OS::CreateDirectory(const char* name, mode_t mode)`. The recursive call is on
`path.substr(0, pos)`, which is shorter than `name`. The first step only records the
invocation in the call log. -/
def CreateDirectory (w : World) (name : CStr) (mode : Nat) : Bool × World :=
  let e := DirectoryExists (w.log (.enter name mode)) name
  if !e.1 then
    let m1 := sys_mkdir e.2 name mode
    if m1.1 == 0 then (true, m1.2)
    else if m1.2.errno == ENOENT then
      match _h : find_last_of name '/' with
      | some pos =>
        let p := CreateDirectory m1.2 (substr name 0 pos) mode
        if !p.1 then (false, p.2)
        else
          let m2 := sys_mkdir p.2 name mode
          (m2.1 == 0, m2.2)
      | none => (false, m1.2)
    else (false, m1.2)
  else (true, e.2)
termination_by name.length
decreasing_by
  have key : ∀ (s : CStr) (i : Nat), find_last_of s '/' = some i → i < s.length := by
    intro s
    induction s with
    | nil => intro i hi; simp [find_last_of] at hi
    | cons x xs ih =>
      intro i hi
      cases hx : find_last_of xs '/' with
      | some j =>
        have hj := ih j hx
        simp only [find_last_of, hx, Option.some.injEq] at hi
        simp only [List.length_cons]
        omega
      | none =>
        simp only [find_last_of, hx] at hi
        simp only [List.length_cons]
        by_cases hxc : x = '/'
        · simp only [hxc, if_true, Option.some.injEq] at hi; omega
        · simp [hxc] at hi
  have := key name pos _h
  simp only [substr, List.drop_zero, List.length_take]
  omega

end OS


/-! ## Reading the call log -/

/-- The paths `OS::CreateDirectory` was invoked on, in call order. -/
def enterNames : List Event → List CStr
  | [] => []
  | .enter n _ :: t => n :: enterNames t
  | _ :: t => enterNames t

/-- The `mkdir` calls issued, in order, with their arguments. -/
def mkdirCalls : List Event → List (CStr × Nat)
  | [] => []
  | .mkdirCall n m :: t => (n, m) :: mkdirCalls t
  | _ :: t => mkdirCalls t

/-- The step from a path to the text before its last separator, as `OS::CreateDirectory` takes
it for its recursive call. -/
def TextParent (a b : CStr) : Prop :=
  ∃ pos, find_last_of a '/' = some pos ∧ b = substr a 0 pos

/-- The call logs one invocation of `OS::CreateDirectory(name, mode)` can leave: the directory
is there; one `mkdir` and no recursion; recursion that fails; recursion followed by the second
`mkdir`. -/
inductive CallShape (mode : Nat) : CStr → List Event → Prop
  | present (name : CStr) : CallShape mode name [.enter name mode, .statCall name]
  | single (name : CStr) :
    CallShape mode name [.enter name mode, .statCall name, .mkdirCall name mode]
  | parentFailed (name : CStr) (pos : Nat) (t : List Event) :
    find_last_of name '/' = some pos → CallShape mode (substr name 0 pos) t →
    CallShape mode name ([.enter name mode, .statCall name, .mkdirCall name mode] ++ t)
  | retried (name : CStr) (pos : Nat) (t : List Event) :
    find_last_of name '/' = some pos → CallShape mode (substr name 0 pos) t →
    CallShape mode name
      ([.enter name mode, .statCall name, .mkdirCall name mode] ++ t ++ [.mkdirCall name mode])

/-! ## Well-formed path texts -/

/-- Components joined by single separators. -/
def relPath : List Name → CStr
  | [] => []
  | [c] => c
  | c :: cs => c ++ '/' :: relPath cs

/-- The text of a path made of the components `cs`: absolute (`/a/b/c`) or relative (`a/b/c`). -/
def mkPath (abs : Bool) (cs : List Name) : CStr :=
  if abs then '/' :: relPath cs else relPath cs

/-- A component as the path text can hold it: not empty and without a separator. -/
def IsComponent (c : Name) : Prop := c ≠ [] ∧ '/' ∉ c

/-- A component that names an entry: neither `.` nor `..`. -/
def IsEntryName (c : Name) : Prop := IsComponent c ∧ c ≠ dot ∧ c ≠ dotdot

/-- The locations of the directories `D/c₁`, `D/c₁/c₂`, ... below the directory at `D`. -/
def createdLocs (D : Loc) : List Name → List Loc
  | [] => []
  | c :: cs => (D ++ [c]) :: createdLocs (D ++ [c]) cs

/-- The file system with a directory of the given mode at each of the locations. -/
def FS.withDirs (fs : FS) (locs : List Loc) (mode : Nat) : FS :=
  { fs with nodes := fun q => if q ∈ locs then some (.dir mode) else fs.nodes q }

/-- What a successful path walk says about the state it ran in. -/
def ResSound (fs : FS) : Res → Prop
  | .found loc node => fs.nodes loc = some node
  | .absent parent c =>
    fs.nodes (parent ++ [c]) = none ∧
      (∃ m, fs.nodes parent = some (.dir m) ∧ m &&& S_IXUSR ≠ 0) ∧ c ≠ dot ∧ c ≠ dotdot

/-- The continuation of a walk with link budget `n` at a symbolic link. -/
def linkCont (fs : FS) (follow : Bool) : Nat → Loc → List Name → Except Nat Res
  | 0 => fun _ _ => .error ELOOP
  | n + 1 => walkN fs follow n

/-- Where the walk of a path starts: the root for an absolute path, else the working
directory. -/
def FS.startLoc (fs : FS) (abs : Bool) : Loc := if abs then [] else fs.cwd

/-- Whether `stat` on the path succeeds and reports a directory. -/
def FS.isDir (fs : FS) (name : CStr) : Bool :=
  match fs.stat name with
  | .ok st => S_ISDIR st.st_mode
  | .error _ => false

/-! ## Example states -/

/-- A file system holding only the root directory, which is also the working directory. -/
def rootOnly (rootMode : Nat) : FS :=
  { nodes := fun q => if q = [] then some (.dir rootMode) else none
    inodes := []
    cwd := []
    ofiles := [] }

/-- A process started in `rootOnly rootMode`. -/
def freshWorld (rootMode : Nat) : World :=
  { fs := rootOnly rootMode, errno := 0, trace := [] }

/-- A process started in a file system that holds a writable root directory and the
directory `/a`. -/
def worldWithA : World :=
  { fs := (rootOnly 0o755).withDirs [["a".toList]] 0o755, errno := 0, trace := [] }

/-- A root directory holding the regular file `f` of five bytes and the symbolic link `l`
whose text is `/f`. -/
def linkFS : FS :=
  { nodes := fun q =>
      if q = [] then some (.dir 0o755)
      else if q = ["f".toList] then some (.reg 0)
      else if q = ["l".toList] then some (.lnk "/f".toList)
      else none
    inodes := [{ mode := 0o644, data := [104, 101, 108, 108, 111] }]
    cwd := []
    ofiles := [] }

/-- A process started in `linkFS`. -/
def linkWorld : World := { fs := linkFS, errno := 0, trace := [] }

/-! ## Facts about the model -/

theorem find_last_of_lt (s : CStr) (ch : Char) (pos : Nat) (h : find_last_of s ch = some pos) :
    pos < s.length := by
  induction s generalizing pos with
  | nil => simp [find_last_of] at h
  | cons x xs ih =>
    cases hx : find_last_of xs ch with
    | some i =>
      have hi := ih i hx
      simp only [find_last_of, hx, Option.some.injEq] at h
      simp only [List.length_cons]
      omega
    | none =>
      simp only [find_last_of, hx] at h
      simp only [List.length_cons]
      by_cases hxc : x = ch
      · simp only [hxc, if_true, Option.some.injEq] at h; omega
      · simp [hxc] at h

/-- The file type bits survive the permission bits that are or-ed in. -/
theorem st_mode_type (t m : Nat) (ht : t &&& S_IFMT = t) :
    ((t ||| (m &&& ALLPERMS)) &&& S_IFMT) = t := by
  rw [Nat.land_comm, Nat.and_or_distrib_left, Nat.land_comm _ t, ht, Nat.land_comm m,
    ← Nat.land_assoc]
  have h0 : (S_IFMT &&& ALLPERMS : Nat) = 0 := by decide
  rw [h0]
  simp

theorem statNode_dir (fs : FS) (m : Nat) (st : StatBuf) (h : fs.statNode (.dir m) = .ok st) :
    S_ISDIR st.st_mode = true ∧ S_ISREG st.st_mode = false := by
  simp only [FS.statNode, Except.ok.injEq] at h
  subst h
  have h1 := st_mode_type S_IFDIR m (by decide)
  simp only [S_ISDIR, S_ISREG, h1]
  decide

theorem statNode_reg (fs : FS) (ino : Nat) (st : StatBuf) (h : fs.statNode (.reg ino) = .ok st) :
    S_ISREG st.st_mode = true ∧ S_ISDIR st.st_mode = false ∧
      ∃ i, fs.inodes[ino]? = some i ∧ st.st_size = i.data.length := by
  simp only [FS.statNode] at h
  cases hi : fs.inodes[ino]? with
  | none => simp [hi] at h
  | some i =>
    simp only [hi, Except.ok.injEq] at h
    subst h
    have h1 := st_mode_type S_IFREG i.mode (by decide)
    simp only [S_ISDIR, S_ISREG, h1]
    exact ⟨by decide, by decide, i, rfl, rfl⟩

theorem statNode_size_nonneg (fs : FS) (node : Node) (st : StatBuf)
    (h : fs.statNode node = .ok st) : 0 ≤ st.st_size := by
  cases node with
  | dir m =>
    simp only [FS.statNode, Except.ok.injEq] at h
    subst h
    show (0 : Int) ≤ 4096
    decide
  | reg ino =>
    obtain ⟨_, _, i, _, hs⟩ := statNode_reg fs ino st h
    rw [hs]
    exact Int.natCast_nonneg _
  | lnk t =>
    simp only [FS.statNode, Except.ok.injEq] at h
    subst h
    exact Int.natCast_nonneg _

theorem stat_size_nonneg (fs : FS) (name : CStr) (st : StatBuf) (h : fs.stat name = .ok st) :
    0 ≤ st.st_size := by
  unfold FS.stat at h
  split at h
  · simp at h
  · simp at h
  · exact statNode_size_nonneg fs _ st h

/-- Regular file and directory are different file types. -/
theorem not_reg_and_dir (m : Nat) : ¬ (S_ISREG m = true ∧ S_ISDIR m = true) := by
  simp only [S_ISREG, S_ISDIR, beq_iff_eq]
  rintro ⟨h1, h2⟩
  rw [h1] at h2
  exact absurd h2 (by decide)

theorem sys_stat_ok (w : World) (name : CStr) (st : StatBuf) (h : w.fs.stat name = .ok st) :
    sys_stat w name = ((0, st), w.log (.statCall name)) := by
  simp only [sys_stat, h]

theorem sys_stat_error (w : World) (name : CStr) (e : Nat) (h : w.fs.stat name = .error e) :
    sys_stat w name = ((-1, default), { w.log (.statCall name) with errno := e }) := by
  simp only [sys_stat, h]

theorem sys_stat_fs (w : World) (name : CStr) : (sys_stat w name).2.fs = w.fs := by
  unfold sys_stat
  split <;> rfl

theorem sys_stat_trace (w : World) (name : CStr) :
    (sys_stat w name).2.trace = w.trace ++ [.statCall name] := by
  unfold sys_stat
  split <;> rfl

theorem FileExists_ok (w : World) (name : CStr) (c : Bool) (st : StatBuf)
    (h : w.fs.stat name = .ok st) :
    (OS.FileExists w name c).1 = (if c then S_ISREG st.st_mode else true) := by
  simp only [OS.FileExists, sys_stat_ok w name st h, beq_self_eq_true, if_true]
  cases c <;> simp

theorem FileExists_error (w : World) (name : CStr) (c : Bool) (e : Nat)
    (h : w.fs.stat name = .error e) : (OS.FileExists w name c).1 = false := by
  simp only [OS.FileExists, sys_stat_error w name e h]
  rfl

theorem DirectoryExists_ok (w : World) (name : CStr) (st : StatBuf)
    (h : w.fs.stat name = .ok st) :
    OS.DirectoryExists w name = (S_ISDIR st.st_mode, w.log (.statCall name)) := by
  simp only [OS.DirectoryExists, sys_stat_ok w name st h, beq_self_eq_true, if_true]

theorem DirectoryExists_error (w : World) (name : CStr) (e : Nat)
    (h : w.fs.stat name = .error e) :
    OS.DirectoryExists w name = (false, { w.log (.statCall name) with errno := e }) := by
  simp only [OS.DirectoryExists, sys_stat_error w name e h]
  rfl

theorem DirectoryExists_fs (w : World) (name : CStr) :
    (OS.DirectoryExists w name).2.fs = w.fs := by
  cases h : w.fs.stat name with
  | ok st => rw [DirectoryExists_ok w name st h]; rfl
  | error e => rw [DirectoryExists_error w name e h]; rfl

theorem DirectoryExists_trace (w : World) (name : CStr) :
    (OS.DirectoryExists w name).2.trace = w.trace ++ [.statCall name] := by
  cases h : w.fs.stat name with
  | ok st => rw [DirectoryExists_ok w name st h]; rfl
  | error e => rw [DirectoryExists_error w name e h]; rfl

/-! ## Existence predicates and size query -/

/-- C6: `OS::FileExists(path, check_file_type)` is true exactly when `stat` on the path succeeds
and either no file-type check is requested or the entry is a regular file. Without the check it
is true for every entry the path resolves to, a directory included, and for either value of the
flag a failing `stat` gives `false`; the call only issues that one `stat` and never changes the
file system. -/
theorem FileExists_iff (w : World) (name : CStr) (check_file_type : Bool) :
    ((OS.FileExists w name check_file_type).1 = true ↔
        ∃ st, w.fs.stat name = .ok st ∧
          (check_file_type = false ∨ S_ISREG st.st_mode = true)) ∧
      (∀ st, w.fs.stat name = .ok st → (OS.FileExists w name false).1 = true) ∧
      (∀ loc m, w.fs.resolve true name = .ok (.found loc (.dir m)) →
        (OS.FileExists w name false).1 = true) ∧
      (∀ e, w.fs.stat name = .error e → (OS.FileExists w name check_file_type).1 = false) ∧
      (OS.FileExists w name check_file_type).2.fs = w.fs ∧
      (OS.FileExists w name check_file_type).2.trace = w.trace ++ [.statCall name] := by
  refine ⟨?_, ?_, ?_, ?_, ?_, ?_⟩
  · cases h : w.fs.stat name with
    | error e =>
      rw [FileExists_error w name _ e h]
      simp
    | ok st =>
      rw [FileExists_ok w name _ st h]
      cases check_file_type <;> simp
  · intro st h
    rw [FileExists_ok w name _ st h]
    rfl
  · intro loc m h
    have hs : w.fs.stat name = .ok { st_mode := S_IFDIR ||| (m &&& ALLPERMS), st_size := 4096 } := by
      simp only [FS.stat, h, FS.statNode]
    rw [FileExists_ok w name _ _ hs]
    rfl
  · intro e h
    exact FileExists_error w name _ e h
  · simp only [OS.FileExists]
    split
    · split <;> exact sys_stat_fs w name
    · exact sys_stat_fs w name
  · simp only [OS.FileExists]
    split
    · split <;> exact sys_stat_trace w name
    · exact sys_stat_trace w name

/-- C5: `OS::FileExists(path, true)` is false when the path denotes a directory,
`OS::DirectoryExists(path)` is false when the path denotes a regular file, and the two are never
both true for the same path in the same state. -/
theorem FileExists_DirectoryExists_exclusive (w : World) (name : CStr) :
    (∀ loc m, w.fs.resolve true name = .ok (.found loc (.dir m)) →
        (OS.FileExists w name true).1 = false) ∧
      (∀ loc ino, w.fs.resolve true name = .ok (.found loc (.reg ino)) →
        (OS.DirectoryExists w name).1 = false) ∧
      (∀ st, w.fs.stat name = .ok st → S_ISDIR st.st_mode = true →
        (OS.FileExists w name true).1 = false) ∧
      (∀ st, w.fs.stat name = .ok st → S_ISREG st.st_mode = true →
        (OS.DirectoryExists w name).1 = false) ∧
      ¬ ((OS.FileExists w name true).1 = true ∧ (OS.DirectoryExists w name).1 = true) := by
  have key : ∀ st, w.fs.stat name = .ok st →
      (OS.FileExists w name true).1 = S_ISREG st.st_mode ∧
        (OS.DirectoryExists w name).1 = S_ISDIR st.st_mode := by
    intro st h
    rw [FileExists_ok w name _ st h, DirectoryExists_ok w name st h]
    exact ⟨rfl, rfl⟩
  refine ⟨?_, ?_, ?_, ?_, ?_⟩
  · intro loc m h
    have hs : w.fs.stat name = w.fs.statNode (.dir m) := by simp only [FS.stat, h]
    have hs2 : w.fs.statNode (.dir m) =
        .ok { st_mode := S_IFDIR ||| (m &&& ALLPERMS), st_size := 4096 } := rfl
    rw [(key _ (hs.trans hs2)).1]
    exact (statNode_dir w.fs m _ hs2).2
  · intro loc ino h
    have hs : w.fs.stat name = w.fs.statNode (.reg ino) := by simp only [FS.stat, h]
    cases hn : w.fs.statNode (.reg ino) with
    | error e =>
      rw [DirectoryExists_error w name e (hs.trans hn)]
    | ok st =>
      rw [(key st (hs.trans hn)).2]
      exact (statNode_reg w.fs ino st hn).2.1
  · intro st h hd
    rw [(key st h).1]
    cases hr : S_ISREG st.st_mode with
    | false => rfl
    | true => exact absurd ⟨hr, hd⟩ (not_reg_and_dir _)
  · intro st h hr
    rw [(key st h).2]
    cases hd : S_ISDIR st.st_mode with
    | false => rfl
    | true => exact absurd ⟨hr, hd⟩ (not_reg_and_dir _)
  · rintro ⟨h1, h2⟩
    cases h : w.fs.stat name with
    | error e =>
      rw [FileExists_error w name _ e h] at h1
      cases h1
    | ok st =>
      rw [(key st h).1] at h1
      rw [(key st h).2] at h2
      exact not_reg_and_dir _ ⟨h1, h2⟩

theorem GetFileSizeBytes_ok (w : World) (name : CStr) (st : StatBuf)
    (h : w.fs.stat name = .ok st) : (OS.GetFileSizeBytes w name).1 = st.st_size := by
  simp only [OS.GetFileSizeBytes, sys_stat_ok w name st h, beq_self_eq_true, if_true]

theorem GetFileSizeBytes_error (w : World) (name : CStr) (e : Nat)
    (h : w.fs.stat name = .error e) : (OS.GetFileSizeBytes w name).1 = -1 := by
  simp only [OS.GetFileSizeBytes, sys_stat_error w name e h]
  rfl

/-- C7: `OS::GetFileSizeBytes(path)` is `-1` when `stat` on the path fails, and otherwise exactly
the size `stat` reports, which is not negative; so the result is negative exactly when the query
failed. The function is total and leaves the file system as it was. -/
theorem GetFileSizeBytes_spec (w : World) (name : CStr) :
    (∀ e, w.fs.stat name = .error e → (OS.GetFileSizeBytes w name).1 = -1) ∧
      (∀ st, w.fs.stat name = .ok st →
        (OS.GetFileSizeBytes w name).1 = st.st_size ∧ 0 ≤ st.st_size) ∧
      ((OS.GetFileSizeBytes w name).1 < 0 ↔ ∃ e, w.fs.stat name = .error e) ∧
      (OS.GetFileSizeBytes w name).2.fs = w.fs := by
  have hok := GetFileSizeBytes_ok w name
  have herr := GetFileSizeBytes_error w name
  refine ⟨herr, fun st h => ⟨hok st h, stat_size_nonneg w.fs name st h⟩, ?_, ?_⟩
  · cases h : w.fs.stat name with
    | error e =>
      rw [herr e h]
      simp
    | ok st =>
      rw [hok st h]
      have := stat_size_nonneg w.fs name st h
      constructor
      · intro hlt; omega
      · rintro ⟨e, he⟩; cases he
  · simp only [OS.GetFileSizeBytes]
    split <;> exact sys_stat_fs w name

/-! ## Opening files -/

theorem File_create_fields (w : World) (path : CStr) (flags mode : Nat) (cu : Bool) :
    (File.create w path flags mode cu).1.path = path ∧
      (File.create w path flags mode cu).1.flags = flags ∧
      (File.create w path flags mode cu).1.mode = mode ∧
      (File.create w path flags mode cu).1.check_usage = cu ∧
      (File.create w path flags mode cu).1.fd = (sys_open w path flags mode).1 ∧
      (File.create w path flags mode cu).2 = (sys_open w path flags mode).2 :=
  ⟨rfl, rfl, rfl, rfl, rfl, rfl⟩

theorem sys_open_trace (w : World) (name : CStr) (flags mode : Nat) :
    (sys_open w name flags mode).2.trace = w.trace ++ [.openCall name flags mode] := by
  unfold sys_open
  split <;> rfl

/-- C9: for a non-null path, `OS::OpenFileWithFlags` constructs the handle with the caller's
flags unchanged, the permission mask `0644`, and usage checking exactly when `auto_flush` is set
and the access mode differs from `O_RDONLY`; it returns null exactly when that handle is not
opened, and the handle otherwise. `OS::OpenFileForReading` therefore never asks for usage
checking, whatever the default of `auto_flush` is. -/
theorem OpenFileWithFlags_spec (w : World) (name : CStr) (flags : Nat) (auto_flush : Bool) :
    ∃ (f : File) (w1 : World),
      File.create w name flags 0o644
          (decide (auto_flush = true ∧ flags &&& O_ACCMODE ≠ O_RDONLY)) = (f, w1) ∧
        OS.OpenFileWithFlags w (some name) flags auto_flush =
          .ret (if f.IsOpened then some f else none, w1) ∧
        f.path = name ∧ f.flags = flags ∧
        f.mode = S_IRUSR ||| S_IWUSR ||| S_IRGRP ||| S_IROTH ∧ f.mode = 0o644 ∧
        (f.check_usage = true ↔ auto_flush = true ∧ flags &&& O_ACCMODE ≠ O_RDONLY) ∧
        w1.trace = w.trace ++ [.openCall name flags 0o644] ∧
        (∀ d : Bool, ∃ g w2,
          OS.OpenFileForReading d w (some name) = .ret (if g.IsOpened then some g else none, w2) ∧
            g.flags = O_RDONLY ∧ g.mode = 0o644 ∧ g.check_usage = false) := by
  have hcu : (!((flags &&& O_ACCMODE) == O_RDONLY) && auto_flush) =
      decide (auto_flush = true ∧ flags &&& O_ACCMODE ≠ O_RDONLY) := by
    by_cases h : flags &&& O_ACCMODE = O_RDONLY <;> cases auto_flush <;> simp [h]
  have hmode : (S_IRUSR ||| S_IWUSR ||| S_IRGRP ||| S_IROTH : Nat) = 0o644 := by decide
  refine ⟨(File.create w name flags 0o644
      (decide (auto_flush = true ∧ flags &&& O_ACCMODE ≠ O_RDONLY))).1,
    (File.create w name flags 0o644
      (decide (auto_flush = true ∧ flags &&& O_ACCMODE ≠ O_RDONLY))).2,
    rfl, ?_, rfl, rfl, hmode.symm, rfl, ?_, ?_, ?_⟩
  · simp only [OS.OpenFileWithFlags, hcu, hmode]
    cases hop : (File.create w name flags 0o644
      (decide (auto_flush = true ∧ flags &&& O_ACCMODE ≠ O_RDONLY))).1.IsOpened <;> simp [hop]
  · simp [File.create]
  · exact sys_open_trace w name flags 0o644
  · intro d
    have hro : (!((O_RDONLY &&& O_ACCMODE) == O_RDONLY) && d) = false := by
      cases d <;> decide
    refine ⟨(File.create w name O_RDONLY 0o644 false).1,
      (File.create w name O_RDONLY 0o644 false).2, ?_, rfl, rfl, rfl⟩
    simp only [OS.OpenFileForReading, OS.OpenFileWithFlags, hro, hmode]
    cases hop : (File.create w name O_RDONLY 0o644 false).1.IsOpened <;> simp [hop]

/-- A null path is a fatal precondition violation of `OS::OpenFileWithFlags`. -/
theorem OpenFileWithFlags_null (w : World) (flags : Nat) (auto_flush : Bool) :
    OS.OpenFileWithFlags w none flags auto_flush = .fatal := rfl

/-! ## Recursive directory creation: control flow -/

theorem log_trace (w : World) (e : Event) : (w.log e).trace = w.trace ++ [e] := rfl

theorem log_fs (w : World) (e : Event) : (w.log e).fs = w.fs := rfl

theorem sys_mkdir_ok (w : World) (name : CStr) (mode : Nat) (fs1 : FS)
    (h : w.fs.mkdir name mode = .ok fs1) :
    sys_mkdir w name mode = (0, { w.log (.mkdirCall name mode) with fs := fs1 }) := by
  simp only [sys_mkdir, h]

theorem sys_mkdir_error (w : World) (name : CStr) (mode : Nat) (e : Nat)
    (h : w.fs.mkdir name mode = .error e) :
    sys_mkdir w name mode = (-1, { w.log (.mkdirCall name mode) with errno := e }) := by
  simp only [sys_mkdir, h]

theorem sys_mkdir_trace (w : World) (name : CStr) (mode : Nat) :
    (sys_mkdir w name mode).2.trace = w.trace ++ [.mkdirCall name mode] := by
  unfold sys_mkdir
  split <;> rfl

theorem CreateDirectory_present (w : World) (name : CStr) (mode : Nat)
    (h : (OS.DirectoryExists (w.log (.enter name mode)) name).1 = true) :
    OS.CreateDirectory w name mode =
      (true, (OS.DirectoryExists (w.log (.enter name mode)) name).2) := by
  rw [OS.CreateDirectory]
  simp only [h, Bool.not_true, Bool.false_eq_true, if_false]

theorem CreateDirectory_direct (w : World) (name : CStr) (mode : Nat)
    (h : (OS.DirectoryExists (w.log (.enter name mode)) name).1 = false)
    (h1 : (sys_mkdir (OS.DirectoryExists (w.log (.enter name mode)) name).2 name mode).1 = 0) :
    OS.CreateDirectory w name mode =
      (true, (sys_mkdir (OS.DirectoryExists (w.log (.enter name mode)) name).2 name mode).2) := by
  rw [OS.CreateDirectory]
  simp only [h, h1, Bool.not_false, if_true, beq_self_eq_true]

theorem CreateDirectory_fail (w : World) (name : CStr) (mode : Nat)
    (h : (OS.DirectoryExists (w.log (.enter name mode)) name).1 = false)
    (h1 : (sys_mkdir (OS.DirectoryExists (w.log (.enter name mode)) name).2 name mode).1 ≠ 0)
    (h2 : (sys_mkdir (OS.DirectoryExists (w.log (.enter name mode)) name).2 name mode).2.errno
        ≠ ENOENT ∨ find_last_of name '/' = none) :
    OS.CreateDirectory w name mode =
      (false, (sys_mkdir (OS.DirectoryExists (w.log (.enter name mode)) name).2 name mode).2) := by
  rw [OS.CreateDirectory]
  simp only [h, h1, Bool.not_false, if_true, beq_iff_eq, if_false]
  split
  · rename_i herr
    split
    · rename_i pos heq
      rcases h2 with h2 | h2
      · exact absurd herr h2
      · rw [h2] at heq
        cases heq
    · rfl
  · rfl

theorem CreateDirectory_recurse (w : World) (name : CStr) (mode : Nat) (pos : Nat)
    (h : (OS.DirectoryExists (w.log (.enter name mode)) name).1 = false)
    (h1 : (sys_mkdir (OS.DirectoryExists (w.log (.enter name mode)) name).2 name mode).1 ≠ 0)
    (h2 : (sys_mkdir (OS.DirectoryExists (w.log (.enter name mode)) name).2 name mode).2.errno
      = ENOENT)
    (h3 : find_last_of name '/' = some pos) :
    OS.CreateDirectory w name mode =
      (let p := OS.CreateDirectory
          (sys_mkdir (OS.DirectoryExists (w.log (.enter name mode)) name).2 name mode).2
          (substr name 0 pos) mode
       if !p.1 then (false, p.2)
       else
         let m2 := sys_mkdir p.2 name mode
         (m2.1 == 0, m2.2)) := by
  rw [OS.CreateDirectory]
  simp only [h, h1, h2, Bool.not_false, if_true, beq_iff_eq, if_false, beq_self_eq_true]
  split
  · rename_i pos2 heq
    rw [h3] at heq
    cases heq
    rfl
  · rename_i heq
    rw [h3] at heq
    cases heq

/-- Every invocation leaves a call log of one of the four shapes. -/
theorem CreateDirectory_shape_aux (mode : Nat) (n : Nat) :
    ∀ name : CStr, name.length = n → ∀ w : World,
      ∃ t, (OS.CreateDirectory w name mode).2.trace = w.trace ++ t ∧ CallShape mode name t := by
  induction n using Nat.strong_induction_on with
  | _ n ih =>
    intro name hn w
    have he := DirectoryExists_trace (w.log (.enter name mode)) name
    have hm := sys_mkdir_trace (OS.DirectoryExists (w.log (.enter name mode)) name).2 name mode
    rw [log_trace] at he
    rw [he] at hm
    cases h : (OS.DirectoryExists (w.log (.enter name mode)) name).1 with
    | true =>
      refine ⟨_, ?_, CallShape.present name⟩
      rw [CreateDirectory_present w name mode h]
      simp [he]
    | false =>
      by_cases h1 : (sys_mkdir (OS.DirectoryExists (w.log (.enter name mode)) name).2
          name mode).1 = 0
      · refine ⟨_, ?_, CallShape.single name⟩
        rw [CreateDirectory_direct w name mode h h1]
        simp [hm]
      · by_cases h2 : (sys_mkdir (OS.DirectoryExists (w.log (.enter name mode)) name).2
            name mode).2.errno = ENOENT
        · cases h3 : find_last_of name '/' with
          | none =>
            refine ⟨_, ?_, CallShape.single name⟩
            rw [CreateDirectory_fail w name mode h h1 (Or.inr h3)]
            simp [hm]
          | some pos =>
            have hlt : (substr name 0 pos).length < n := by
              have := find_last_of_lt name '/' pos h3
              simp only [substr, List.drop_zero, List.length_take]
              omega
            obtain ⟨t, ht, hshape⟩ := ih _ hlt (substr name 0 pos) rfl
              (sys_mkdir (OS.DirectoryExists (w.log (.enter name mode)) name).2 name mode).2
            rw [CreateDirectory_recurse w name mode pos h h1 h2 h3]
            simp only []
            split
            · refine ⟨_, ?_, CallShape.parentFailed name pos t h3 hshape⟩
              simp [ht, hm]
            · refine ⟨_, ?_, CallShape.retried name pos t h3 hshape⟩
              simp [sys_mkdir_trace, ht, he]
        · refine ⟨_, ?_, CallShape.single name⟩
          rw [CreateDirectory_fail w name mode h h1 (Or.inl h2)]
          simp [hm]

theorem CreateDirectory_shape (w : World) (name : CStr) (mode : Nat) :
    ∃ t, (OS.CreateDirectory w name mode).2.trace = w.trace ++ t ∧ CallShape mode name t :=
  CreateDirectory_shape_aux mode name.length name rfl w

theorem find_last_of_eq_none (s : CStr) (ch : Char) : find_last_of s ch = none ↔ ch ∉ s := by
  induction s with
  | nil => simp [find_last_of]
  | cons x xs ih =>
    cases hx : find_last_of xs ch with
    | some i =>
      have hmem : ch ∈ xs := by
        by_contra hc
        rw [ih.mpr hc] at hx
        cases hx
      simp [find_last_of, hx, hmem]
    | none =>
      have hnot : ch ∉ xs := ih.mp hx
      by_cases hxc : x = ch
      · simp [find_last_of, hx, hxc]
      · have hne : ¬ ch = x := fun h => hxc h.symm
        simp [find_last_of, hx, hxc, hnot, hne]

/-- The text before the last separator, the separator, and a rest without separators. -/
theorem find_last_of_split (s : CStr) (ch : Char) (pos : Nat)
    (h : find_last_of s ch = some pos) :
    s = s.take pos ++ ch :: s.drop (pos + 1) ∧ ch ∉ s.drop (pos + 1) := by
  induction s generalizing pos with
  | nil => simp [find_last_of] at h
  | cons x xs ih =>
    cases hx : find_last_of xs ch with
    | some i =>
      simp only [find_last_of, hx, Option.some.injEq] at h
      subst h
      obtain ⟨h1, h2⟩ := ih i hx
      refine ⟨?_, ?_⟩
      · simp only [List.take_succ_cons, List.drop_succ_cons, List.cons_append]
        rw [← h1]
      · simpa using h2
    | none =>
      simp only [find_last_of, hx] at h
      by_cases hxc : x = ch
      · simp only [hxc, if_true, Option.some.injEq] at h
        subst h
        subst hxc
        refine ⟨by simp, ?_⟩
        simpa using (find_last_of_eq_none xs x).mp hx
      · simp [hxc] at h

theorem textParent_shorter (a b : CStr) (h : TextParent a b) :
    b <+: a ∧ b.length < a.length ∧ b.count '/' + 1 = a.count '/' := by
  obtain ⟨pos, hpos, hb⟩ := h
  have hlt := find_last_of_lt a '/' pos hpos
  obtain ⟨hsplit, hno⟩ := find_last_of_split a '/' pos hpos
  subst hb
  refine ⟨?_, ?_, ?_⟩
  · simp only [substr, List.drop_zero]
    exact List.take_prefix _ _
  · simp only [substr, List.drop_zero, List.length_take]
    omega
  · simp only [substr, List.drop_zero]
    conv_rhs => rw [hsplit]
    rw [List.count_append, List.count_cons_self, List.count_eq_zero_of_not_mem hno]

theorem enterNames_append (s t : List Event) :
    enterNames (s ++ t) = enterNames s ++ enterNames t := by
  induction s with
  | nil => rfl
  | cons e s ih => cases e <;> simp [enterNames, ih]

theorem mkdirCalls_append (s t : List Event) :
    mkdirCalls (s ++ t) = mkdirCalls s ++ mkdirCalls t := by
  induction s with
  | nil => rfl
  | cons e s ih => cases e <;> simp [mkdirCalls, ih]

theorem shape_enterNames_head (mode : Nat) (name : CStr) (t : List Event)
    (h : CallShape mode name t) : ∃ rest, enterNames t = name :: rest := by
  cases h <;> simp [enterNames, enterNames_append]

/-- What the shape of the call log implies: invocations follow the chain of text parents, there
are at most as many as separators plus one, every `mkdir` carries the caller's mode and is for a
path that was entered, and no path is tried more than twice. -/
theorem shape_facts (mode : Nat) (name : CStr) (t : List Event) (h : CallShape mode name t) :
    List.Chain' TextParent (enterNames t) ∧
      (enterNames t).length ≤ name.count '/' + 1 ∧
      (∀ a ∈ enterNames t, a.length ≤ name.length) ∧
      (∀ c ∈ mkdirCalls t, c.2 = mode ∧ c.1 ∈ enterNames t) ∧
      (∀ a, ((mkdirCalls t).filter (fun c => c.1 = a)).length ≤ 2) ∧
      (mkdirCalls t).length ≤ 2 * (enterNames t).length ∧
      (∀ e ∈ t, ∀ a m, e = .enter a m → m = mode) := by
  induction h with
  | present name => simp [enterNames, mkdirCalls]
  | single name =>
    refine ⟨by simp [enterNames], by simp [enterNames], by simp [enterNames],
      by simp [enterNames, mkdirCalls], ?_, by simp [enterNames, mkdirCalls], by simp⟩
    intro a
    simp only [mkdirCalls, List.filter]
    split <;> simp
  | parentFailed name pos t hpos hsub ih =>
    obtain ⟨hchain, hlen, hle, hmk, hcnt, htot, hmode⟩ := ih
    obtain ⟨rest, hrest⟩ := shape_enterNames_head mode _ t hsub
    have htp : TextParent name (substr name 0 pos) := ⟨pos, hpos, rfl⟩
    obtain ⟨_, hshort, hcount⟩ := textParent_shorter _ _ htp
    have hen : enterNames ([.enter name mode, .statCall name, .mkdirCall name mode] ++ t) =
        name :: enterNames t := by simp [enterNames_append, enterNames]
    have hmc : mkdirCalls ([.enter name mode, .statCall name, .mkdirCall name mode] ++ t) =
        (name, mode) :: mkdirCalls t := by simp [mkdirCalls_append, mkdirCalls]
    rw [hen, hmc]
    refine ⟨?_, ?_, ?_, ?_, ?_, ?_, ?_⟩
    · rw [hrest, List.chain'_cons]
      rw [hrest] at hchain
      exact ⟨htp, hchain⟩
    · simp only [List.length_cons]
      omega
    · intro a ha
      rcases List.mem_cons.mp ha with ha | ha
      · rw [ha]
      · have := hle a ha
        omega
    · intro c hc
      rcases List.mem_cons.mp hc with hc | hc
      · subst hc
        simp
      · exact ⟨(hmk c hc).1, List.mem_cons_of_mem _ (hmk c hc).2⟩
    · intro a
      by_cases ha : name = a
      · have hzero : (mkdirCalls t).filter (fun c => decide (c.1 = a)) = [] := by
          rw [List.filter_eq_nil_iff]
          intro c hc hca
          have h1 := hle c.1 (hmk c hc).2
          simp only [decide_eq_true_eq] at hca
          rw [hca, ← ha] at h1
          omega
        simp [List.filter, ha, hzero]
      · have := hcnt a
        simp only [List.filter, ha, decide_False]
        omega
    · simp only [List.length_cons]
      omega
    · intro e he a m hea
      subst hea
      simp only [List.cons_append, List.nil_append, List.mem_cons, Event.enter.injEq,
        reduceCtorEq, false_or] at he
      rcases he with he | he
      · exact he.2
      · exact hmode _ he a m rfl
  | retried name pos t hpos hsub ih =>
    obtain ⟨hchain, hlen, hle, hmk, hcnt, htot, hmode⟩ := ih
    obtain ⟨rest, hrest⟩ := shape_enterNames_head mode _ t hsub
    have htp : TextParent name (substr name 0 pos) := ⟨pos, hpos, rfl⟩
    obtain ⟨_, hshort, hcount⟩ := textParent_shorter _ _ htp
    have hen : enterNames ([.enter name mode, .statCall name, .mkdirCall name mode] ++ t ++
        [.mkdirCall name mode]) = name :: enterNames t := by
      simp [enterNames_append, enterNames]
    have hmc : mkdirCalls ([.enter name mode, .statCall name, .mkdirCall name mode] ++ t ++
        [.mkdirCall name mode]) = (name, mode) :: (mkdirCalls t ++ [(name, mode)]) := by
      simp [mkdirCalls_append, mkdirCalls]
    rw [hen, hmc]
    refine ⟨?_, ?_, ?_, ?_, ?_, ?_, ?_⟩
    · rw [hrest, List.chain'_cons]
      rw [hrest] at hchain
      exact ⟨htp, hchain⟩
    · simp only [List.length_cons]
      omega
    · intro a ha
      rcases List.mem_cons.mp ha with ha | ha
      · rw [ha]
      · have := hle a ha
        omega
    · intro c hc
      rcases List.mem_cons.mp hc with hc | hc
      · subst hc
        simp
      · rcases List.mem_append.mp hc with hc | hc
        · exact ⟨(hmk c hc).1, List.mem_cons_of_mem _ (hmk c hc).2⟩
        · simp only [List.mem_singleton] at hc
          subst hc
          simp
    · intro a
      by_cases ha : name = a
      · have hzero : (mkdirCalls t).filter (fun c => decide (c.1 = a)) = [] := by
          rw [List.filter_eq_nil_iff]
          intro c hc hca
          have h1 := hle c.1 (hmk c hc).2
          simp only [decide_eq_true_eq] at hca
          rw [hca, ← ha] at h1
          omega
        simp [List.filter, ha, hzero]
      · have := hcnt a
        simp only [List.filter, ha, decide_False, List.filter_append, List.filter_nil,
          List.append_nil]
        omega
    · simp only [List.length_cons, List.length_append, List.length_nil]
      omega
    · intro e he a m hea
      subst hea
      simp only [List.cons_append, List.nil_append, List.mem_cons, Event.enter.injEq,
        reduceCtorEq, false_or, List.mem_append, List.mem_singleton, or_false,
        List.not_mem_nil] at he
      rcases he with he | he
      · exact he.2
      · exact hmode _ he a m rfl

theorem shape_pairwise (mode : Nat) (name : CStr) (t : List Event) (h : CallShape mode name t) :
    List.Pairwise (fun a b : CStr => b.length < a.length) (enterNames t) := by
  induction h with
  | present name => simp [enterNames]
  | single name => simp [enterNames]
  | parentFailed name pos t hpos hsub ih =>
    have hen : enterNames ([.enter name mode, .statCall name, .mkdirCall name mode] ++ t) =
        name :: enterNames t := by simp [enterNames_append, enterNames]
    rw [hen, List.pairwise_cons]
    refine ⟨fun a ha => ?_, ih⟩
    have h1 := (shape_facts mode _ t hsub).2.2.1 a ha
    have h2 := (textParent_shorter name _ ⟨pos, hpos, rfl⟩).2.1
    omega
  | retried name pos t hpos hsub ih =>
    have hen : enterNames ([.enter name mode, .statCall name, .mkdirCall name mode] ++ t ++
        [.mkdirCall name mode]) = name :: enterNames t := by
      simp [enterNames_append, enterNames]
    rw [hen, List.pairwise_cons]
    refine ⟨fun a ha => ?_, ih⟩
    have h1 := (shape_facts mode _ t hsub).2.2.1 a ha
    have h2 := (textParent_shorter name _ ⟨pos, hpos, rfl⟩).2.1
    omega

/-- C10: `OS::CreateDirectory` is total. The invocations it makes start with the path given and
each next one is on the text before the last `/` of the previous path, a strictly shorter
initial segment, so there are at most as many invocations as the path has separators, plus one;
no two invocations are on the same path and no path gets more than two `mkdir` attempts; every
`mkdir` is for a path that was entered and carries the caller's mode, as does every
invocation. -/
theorem CreateDirectory_terminates (w : World) (name : CStr) (mode : Nat) :
    ∃ t, (OS.CreateDirectory w name mode).2.trace = w.trace ++ t ∧
      (∃ rest, enterNames t = name :: rest) ∧
      List.Chain' (fun a b : CStr =>
        (∃ pos, find_last_of a '/' = some pos ∧ b = substr a 0 pos) ∧
          b <+: a ∧ b.length < a.length) (enterNames t) ∧
      List.Pairwise (fun a b : CStr => b.length < a.length) (enterNames t) ∧
      (enterNames t).length ≤ name.count '/' + 1 ∧
      (∀ a, ((mkdirCalls t).filter (fun c => c.1 = a)).length ≤ 2) ∧
      (mkdirCalls t).length ≤ 2 * (enterNames t).length ∧
      (∀ c ∈ mkdirCalls t, c.2 = mode ∧ c.1 ∈ enterNames t) ∧
      (∀ e ∈ t, ∀ a m, e = .enter a m → m = mode) := by
  obtain ⟨t, ht, hshape⟩ := CreateDirectory_shape w name mode
  obtain ⟨hchain, hlen, _, hmk, hcnt, htot, hmode⟩ := shape_facts mode name t hshape
  refine ⟨t, ht, shape_enterNames_head mode name t hshape, ?_, shape_pairwise mode name t hshape,
    hlen, hcnt, htot, hmk, hmode⟩
  refine List.Chain'.imp ?_ hchain
  intro a b hab
  exact ⟨hab, (textParent_shorter a b hab).1, (textParent_shorter a b hab).2.1⟩

theorem DirectoryExists_fst_log (w : World) (e : Event) (name : CStr) :
    (OS.DirectoryExists (w.log e) name).1 = (OS.DirectoryExists w name).1 := by
  cases h : w.fs.stat name with
  | ok st =>
    rw [DirectoryExists_ok w name st h, DirectoryExists_ok (w.log e) name st h]
  | error err =>
    rw [DirectoryExists_error w name err h, DirectoryExists_error (w.log e) name err h]

/-- C3: when the target is not an existing directory and the first `mkdir(name, mode)` fails
with an error other than `ENOENT`, or with `ENOENT` for a path without a `/`, then
`OS::CreateDirectory` returns false; the invocation issued exactly that one `mkdir`, did not
call itself, and left the file system as it was (`errno` holds the error of the `mkdir`). -/
theorem CreateDirectory_fails_without_retry (w : World) (name : CStr) (mode e : Nat)
    (hdir : (OS.DirectoryExists w name).1 = false)
    (hmk : w.fs.mkdir name mode = .error e)
    (hcase : e ≠ ENOENT ∨ '/' ∉ name) :
    (OS.CreateDirectory w name mode).1 = false ∧
      (OS.CreateDirectory w name mode).2.fs = w.fs ∧
      (OS.CreateDirectory w name mode).2.errno = e ∧
      (OS.CreateDirectory w name mode).2.trace =
        w.trace ++ [.enter name mode, .statCall name, .mkdirCall name mode] ∧
      mkdirCalls ((OS.CreateDirectory w name mode).2.trace.drop w.trace.length) =
        [(name, mode)] ∧
      enterNames ((OS.CreateDirectory w name mode).2.trace.drop w.trace.length) = [name] := by
  have h0 : (OS.DirectoryExists (w.log (.enter name mode)) name).1 = false := by
    rw [DirectoryExists_fst_log]; exact hdir
  have hfs : (OS.DirectoryExists (w.log (.enter name mode)) name).2.fs = w.fs := by
    rw [DirectoryExists_fs]; rfl
  have hmk2 : (OS.DirectoryExists (w.log (.enter name mode)) name).2.fs.mkdir name mode
      = .error e := by rw [hfs]; exact hmk
  have hsys := sys_mkdir_error _ name mode e hmk2
  have htr : (OS.CreateDirectory w name mode).2.trace =
      w.trace ++ [.enter name mode, .statCall name, .mkdirCall name mode] ∧
      (OS.CreateDirectory w name mode).1 = false ∧
      (OS.CreateDirectory w name mode).2.fs = w.fs ∧
      (OS.CreateDirectory w name mode).2.errno = e := by
    rw [CreateDirectory_fail w name mode h0 (by rw [hsys]; show (-1 : Int) ≠ 0; decide)
      (by
        rw [hsys]
        rcases hcase with hc | hc
        · exact Or.inl hc
        · exact Or.inr ((find_last_of_eq_none name '/').mpr hc))]
    rw [hsys]
    refine ⟨?_, rfl, ?_, rfl⟩
    · simp [log_trace, DirectoryExists_trace]
    · simpa [log_fs] using hfs
  refine ⟨htr.2.1, htr.2.2.1, htr.2.2.2, htr.1, ?_, ?_⟩
  · rw [htr.1, List.drop_left]
    rfl
  · rw [htr.1, List.drop_left]
    rfl

/-- C3 at a concrete input: the root directory is not writable, `mkdir("a")` fails with
`EACCES`. -/
theorem CreateDirectory_fails_without_retry_witness :
    (OS.CreateDirectory (freshWorld 0o555) "a".toList 0o755).1 = false ∧
      (OS.CreateDirectory (freshWorld 0o555) "a".toList 0o755).2.fs = (freshWorld 0o555).fs ∧
      (OS.CreateDirectory (freshWorld 0o555) "a".toList 0o755).2.errno = EACCES ∧
      (OS.CreateDirectory (freshWorld 0o555) "a".toList 0o755).2.trace =
        (freshWorld 0o555).trace ++
          [.enter "a".toList 0o755, .statCall "a".toList, .mkdirCall "a".toList 0o755] ∧
      mkdirCalls ((OS.CreateDirectory (freshWorld 0o555) "a".toList 0o755).2.trace.drop
        (freshWorld 0o555).trace.length) = [("a".toList, 0o755)] ∧
      enterNames ((OS.CreateDirectory (freshWorld 0o555) "a".toList 0o755).2.trace.drop
        (freshWorld 0o555).trace.length) = ["a".toList] :=
  CreateDirectory_fails_without_retry (freshWorld 0o555) "a".toList 0o755 EACCES
    (by decide) rfl (Or.inl (by decide))

/-! ## Path texts -/

theorem splitSlash_ne_nil (s : CStr) : splitSlash s ≠ [] := by
  cases s with
  | nil => simp [splitSlash]
  | cons x xs =>
    simp only [splitSlash]
    split
    · simp
    · split <;> simp

theorem splitSlash_plain (c : CStr) (h : '/' ∉ c) : splitSlash c = [c] := by
  induction c with
  | nil => rfl
  | cons x xs ih =>
    have hx : x ≠ '/' := fun hx => h (by simp [hx])
    have hxs : '/' ∉ xs := fun hm => h (List.mem_cons_of_mem _ hm)
    simp [splitSlash, hx, ih hxs]

theorem splitSlash_snoc (s c : CStr) (hc : '/' ∉ c) :
    splitSlash (s ++ '/' :: c) = splitSlash s ++ [c] := by
  induction s with
  | nil => simp [splitSlash, splitSlash_plain c hc]
  | cons x xs ih =>
    by_cases hx : x = '/'
    · simp [splitSlash, hx, ih]
    · simp only [List.cons_append, splitSlash, hx, if_false]
      show (match splitSlash (xs ++ '/' :: c) with
        | [] => [[x]]
        | h :: t => (x :: h) :: t) = _
      rw [ih]
      cases hs : splitSlash xs with
      | nil => exact absurd hs (splitSlash_ne_nil xs)
      | cons h t => rfl

theorem components_snoc (s c : CStr) (hc : IsComponent c) :
    components (s ++ '/' :: c) = components s ++ [c] := by
  have hne : c.isEmpty = false := by
    cases c with
    | nil => exact absurd rfl hc.1
    | cons _ _ => rfl
  simp [components, splitSlash_snoc s c hc.2, List.filter_append, hne]

theorem relPath_snoc (cs : List Name) (c : Name) (h : cs ≠ []) :
    relPath (cs ++ [c]) = relPath cs ++ '/' :: c := by
  induction cs with
  | nil => exact absurd rfl h
  | cons x xs ih =>
    cases xs with
    | nil => simp [relPath]
    | cons y ys =>
      have := ih (by simp)
      simp only [List.cons_append] at this ⊢
      simp only [relPath, this, List.append_assoc, List.cons_append]

theorem mkPath_snoc (abs : Bool) (cs : List Name) (c : Name) (h : cs ≠ []) :
    mkPath abs (cs ++ [c]) = mkPath abs cs ++ '/' :: c := by
  cases abs <;> simp [mkPath, relPath_snoc cs c h]

theorem components_mkPath (abs : Bool) (cs : List Name) (h : ∀ c ∈ cs, IsComponent c) :
    components (mkPath abs cs) = cs := by
  induction cs using List.reverseRecOn with
  | nil => cases abs <;> decide
  | append_singleton cs c ih =>
    have hc : IsComponent c := h c (by simp)
    have hcs : ∀ x ∈ cs, IsComponent x := fun x hx => h x (by simp [hx])
    by_cases hnil : cs = []
    · subst hnil
      have hne : c.isEmpty = false := by
        cases c with
        | nil => exact absurd rfl hc.1
        | cons _ _ => rfl
      cases abs
      · simp [mkPath, relPath, components, splitSlash_plain c hc.2, hne]
      · simp [mkPath, relPath, components, splitSlash, splitSlash_plain c hc.2, hne]
    · rw [mkPath_snoc abs cs c hnil, components_snoc _ c hc, ih hcs]

theorem find_last_of_snoc (s c : CStr) (hc : '/' ∉ c) :
    find_last_of (s ++ '/' :: c) '/' = some s.length := by
  induction s with
  | nil =>
    simp [find_last_of, (find_last_of_eq_none c '/').mpr hc]
  | cons x xs ih =>
    simp [find_last_of, ih]

/-- The text before the last separator of a path with at least two components is the path of
all components but the last. -/
theorem mkPath_parent (abs : Bool) (cs : List Name) (c : Name) (h : cs ≠ []) (hc : '/' ∉ c) :
    ∃ pos, find_last_of (mkPath abs (cs ++ [c])) '/' = some pos ∧
      substr (mkPath abs (cs ++ [c])) 0 pos = mkPath abs cs := by
  refine ⟨(mkPath abs cs).length, ?_, ?_⟩
  · rw [mkPath_snoc abs cs c h]
    exact find_last_of_snoc _ c hc
  · rw [mkPath_snoc abs cs c h]
    simp [substr]

theorem relPath_ne_nil (cs : List Name) (h : cs ≠ []) (hc : ∀ c ∈ cs, IsComponent c) :
    relPath cs ≠ [] ∧ (relPath cs).head? ≠ some '/' ∧ (relPath cs).getLast? ≠ some '/' := by
  induction cs using List.reverseRecOn with
  | nil => exact absurd rfl h
  | append_singleton cs c ih =>
    have hcc : IsComponent c := hc c (by simp)
    have hlast : c.getLast? ≠ some '/' := by
      intro hl
      exact hcc.2 (List.mem_of_getLast?_eq_some hl)
    by_cases hnil : cs = []
    · subst hnil
      refine ⟨by simpa [relPath] using hcc.1, ?_, by simpa [relPath] using hlast⟩
      simp only [List.nil_append, relPath]
      intro hh
      exact hcc.2 (List.mem_of_mem_head? hh)
    · obtain ⟨h1, h2, _⟩ := ih hnil (fun x hx => hc x (by simp [hx]))
      rw [relPath_snoc cs c hnil]
      refine ⟨by simp, ?_, ?_⟩
      · cases hr : relPath cs with
        | nil => exact absurd hr h1
        | cons a as =>
          rw [hr] at h2
          simpa using h2
      · intro hl
        have hmem := List.mem_of_getLast?_eq_some hl
        cases c with
        | nil => exact absurd rfl hcc.1
        | cons z zs =>
          rw [List.getLast?_append, List.getLast?_cons_cons] at hl
          cases hz : (z :: zs).getLast? with
          | none => simp at hz
          | some y =>
            rw [hz] at hl hlast
            simp only [Option.or_some, Option.some.injEq] at hl
            exact hlast (by rw [hl])

theorem mkPath_shape (abs : Bool) (cs : List Name) (h : cs ≠ [])
    (hc : ∀ c ∈ cs, IsComponent c) :
    mkPath abs cs ≠ [] ∧ ((mkPath abs cs).head? = some '/' ↔ abs = true) ∧
      trailingSlash (mkPath abs cs) = false := by
  obtain ⟨h1, h2, h3⟩ := relPath_ne_nil cs h hc
  cases abs
  · refine ⟨by simpa [mkPath] using h1, by simpa [mkPath] using h2, ?_⟩
    simpa [mkPath, trailingSlash] using h3
  · refine ⟨by simp [mkPath], by simp [mkPath], ?_⟩
    cases hr : relPath cs with
    | nil => exact absurd hr h1
    | cons a as =>
      rw [hr] at h3
      simp only [mkPath, if_true, trailingSlash, hr, List.getLast?_cons_cons]
      simpa using h3

/-! ## Path walks -/

/-- One step of a walk. -/
theorem walkWith_cons (fs : FS) (k : Loc → List Name → Except Nat Res) (fl : Bool)
    (cur : Loc) (c : Name) (rest : List Name) :
    walkWith fs k fl cur (c :: rest) =
      match fs.nodes cur with
      | some (.dir m) =>
        if m &&& S_IXUSR = 0 then .error EACCES
        else if c = dot then walkWith fs k fl cur rest
        else if c = dotdot then walkWith fs k fl cur.dropLast rest
        else
          match fs.nodes (cur ++ [c]) with
          | none => if rest = [] then .ok (.absent cur c) else .error ENOENT
          | some (.dir _) => walkWith fs k fl (cur ++ [c]) rest
          | some (.reg i) =>
            if rest = [] then .ok (.found (cur ++ [c]) (.reg i)) else .error ENOTDIR
          | some (.lnk t) =>
            if rest = [] ∧ fl = false then .ok (.found (cur ++ [c]) (.lnk t))
            else if t = [] then .error ENOENT
            else k (if t.head? = some '/' then [] else cur) (components t ++ rest)
      | some _ => .error ENOTDIR
      | none => .error ENOENT := by
  rw [walkWith]

theorem walkWith_nil (fs : FS) (k : Loc → List Name → Except Nat Res) (fl : Bool) (cur : Loc) :
    walkWith fs k fl cur [] =
      match fs.nodes cur with
      | some (.dir m) => .ok (.found cur (.dir m))
      | some _ => .error ENOTDIR
      | none => .error ENOENT := by
  rw [walkWith]

theorem walkN_eq (fs : FS) (fl : Bool) (n : Nat) :
    walkN fs fl n = walkWith fs (linkCont fs fl n) fl := by
  cases n <;> rfl

/-- A step into an entry name below a searchable directory. -/
theorem walkWith_step (fs : FS) (k : Loc → List Name → Except Nat Res) (fl : Bool)
    (cur : Loc) (c : Name) (rest : List Name) (m : Nat)
    (hcur : fs.nodes cur = some (.dir m)) (hx : m &&& S_IXUSR ≠ 0)
    (hdot : c ≠ dot) (hdd : c ≠ dotdot) :
    walkWith fs k fl cur (c :: rest) =
      match fs.nodes (cur ++ [c]) with
      | none => if rest = [] then .ok (.absent cur c) else .error ENOENT
      | some (.dir _) => walkWith fs k fl (cur ++ [c]) rest
      | some (.reg i) =>
        if rest = [] then .ok (.found (cur ++ [c]) (.reg i)) else .error ENOTDIR
      | some (.lnk t) =>
        if rest = [] ∧ fl = false then .ok (.found (cur ++ [c]) (.lnk t))
        else if t = [] then .error ENOENT
        else k (if t.head? = some '/' then [] else cur) (components t ++ rest) := by
  rw [walkWith_cons, hcur]
  simp only [hx, hdot, hdd, if_false]

theorem walkWith_sound (fs : FS) (k : Loc → List Name → Except Nat Res) (fl : Bool)
    (hk : ∀ s cs r, k s cs = .ok r → ResSound fs r) :
    ∀ (cs : List Name) (cur : Loc) (r : Res), walkWith fs k fl cur cs = .ok r → ResSound fs r := by
  intro cs
  induction cs with
  | nil =>
    intro cur r h
    rw [walkWith_nil] at h
    split at h
    · cases h
      assumption
    · cases h
    · cases h
  | cons c rest ih =>
    intro cur r h
    rw [walkWith_cons] at h
    split at h
    · rename_i m hm
      split at h
      · cases h
      · rename_i hx
        split at h
        · exact ih _ _ h
        · rename_i hdot
          split at h
          · exact ih _ _ h
          · rename_i hdd
            split at h
            · rename_i hn
              split at h
              · cases h
                exact ⟨hn, ⟨m, hm, hx⟩, hdot, hdd⟩
              · cases h
            · exact ih _ _ h
            · rename_i i hn
              split at h
              · cases h
                exact hn
              · cases h
            · rename_i t hn
              split at h
              · cases h
                exact hn
              · split at h
                · cases h
                · exact hk _ _ _ h
    · cases h
    · cases h

theorem walkN_sound (fs : FS) (fl : Bool) (n : Nat) :
    ∀ (cs : List Name) (cur : Loc) (r : Res), walkN fs fl n cur cs = .ok r → ResSound fs r := by
  induction n with
  | zero =>
    intro cs cur r h
    exact walkWith_sound fs _ fl (fun _ _ _ hh => by cases hh) cs cur r h
  | succ n ih =>
    intro cs cur r h
    exact walkWith_sound fs _ fl (fun s cs' r' hh => ih cs' s r' hh) cs cur r h

/-- A walk that found a node finds it again after entries have been added. -/
theorem walkWith_mono (fs fs' : FS) (k k' : Loc → List Name → Except Nat Res) (fl : Bool)
    (hsub : ∀ q n, fs.nodes q = some n → fs'.nodes q = some n)
    (hk : ∀ s cs loc node, k s cs = .ok (.found loc node) → k' s cs = .ok (.found loc node)) :
    ∀ (cs : List Name) (cur loc : Loc) (node : Node),
      walkWith fs k fl cur cs = .ok (.found loc node) →
      walkWith fs' k' fl cur cs = .ok (.found loc node) := by
  intro cs
  induction cs with
  | nil =>
    intro cur loc node h
    rw [walkWith_nil] at h ⊢
    split at h
    · rename_i m hm
      rw [hsub _ _ hm]
      exact h
    · cases h
    · cases h
  | cons c rest ih =>
    intro cur loc node h
    rw [walkWith_cons] at h ⊢
    split at h
    · rename_i m hm
      rw [hsub _ _ hm]
      simp only []
      split at h
      · cases h
      · rename_i hx
        rw [if_neg hx]
        split at h
        · rename_i hdot
          rw [if_pos hdot]
          exact ih _ _ _ h
        · rename_i hdot
          rw [if_neg hdot]
          split at h
          · rename_i hdd
            rw [if_pos hdd]
            exact ih _ _ _ h
          · rename_i hdd
            rw [if_neg hdd]
            split at h
            · split at h <;> cases h
            · rename_i m2 hn
              rw [hsub _ _ hn]
              exact ih _ _ _ h
            · rename_i i hn
              rw [hsub _ _ hn]
              exact h
            · rename_i t hn
              rw [hsub _ _ hn]
              simp only []
              split at h
              · rename_i hc
                rw [if_pos hc]
                exact h
              · rename_i hc
                rw [if_neg hc]
                split at h
                · cases h
                · rename_i ht
                  rw [if_neg ht]
                  exact hk _ _ _ _ h
    · cases h
    · cases h

theorem walkN_mono (fs fs' : FS) (fl : Bool)
    (hsub : ∀ q n, fs.nodes q = some n → fs'.nodes q = some n) (n : Nat) :
    ∀ (cs : List Name) (cur loc : Loc) (node : Node),
      walkN fs fl n cur cs = .ok (.found loc node) →
      walkN fs' fl n cur cs = .ok (.found loc node) := by
  induction n with
  | zero =>
    intro cs cur loc node h
    exact walkWith_mono fs fs' _ _ fl hsub (fun _ _ _ _ hh => by cases hh) cs cur loc node h
  | succ n ih =>
    intro cs cur loc node h
    exact walkWith_mono fs fs' _ _ fl hsub (fun s cs' l nd hh => ih cs' s l nd hh) cs cur loc node h

/-- A walk that reaches a directory continues from there: walking `pre ++ rest` is walking
`rest` from the directory `pre` leads to, with whatever link budget is left. -/
theorem walkWith_append (fs : FS) (D : Loc) (m0 : Nat) (n : Nat)
    (hk : ∀ s cs, linkCont fs true n s cs = .ok (.found D (.dir m0)) →
      ∃ n', ∀ (rest : List Name) (fl : Bool), (rest ≠ [] ∨ fl = true) →
        linkCont fs fl n s (cs ++ rest) = walkN fs fl n' D rest) :
    ∀ (pre : List Name) (cur : Loc),
      walkWith fs (linkCont fs true n) true cur pre = .ok (.found D (.dir m0)) →
      ∃ n', ∀ (rest : List Name) (fl : Bool), (rest ≠ [] ∨ fl = true) →
        walkWith fs (linkCont fs fl n) fl cur (pre ++ rest) = walkN fs fl n' D rest := by
  intro pre
  induction pre with
  | nil =>
    intro cur h
    rw [walkWith_nil] at h
    split at h
    · cases h
      exact ⟨n, fun rest fl _ => by rw [walkN_eq]; rfl⟩
    · cases h
    · cases h
  | cons c pre ih =>
    intro cur h
    rw [walkWith_cons] at h
    split at h
    · rename_i m hm
      split at h
      · cases h
      · rename_i hx
        split at h
        · rename_i hdot
          obtain ⟨n', hn'⟩ := ih _ h
          refine ⟨n', fun rest fl hc => ?_⟩
          rw [List.cons_append, walkWith_cons, hm]
          simp only [hx, hdot, if_true, if_false]
          exact hn' rest fl hc
        · rename_i hdot
          split at h
          · rename_i hdd
            obtain ⟨n', hn'⟩ := ih _ h
            refine ⟨n', fun rest fl hc => ?_⟩
            rw [List.cons_append, walkWith_cons, hm]
            simp only [hx, hdot, hdd, if_true, if_false]
            exact hn' rest fl hc
          · rename_i hdd
            split at h
            · split at h <;> cases h
            · rename_i m2 hn
              obtain ⟨n', hn'⟩ := ih _ h
              refine ⟨n', fun rest fl hc => ?_⟩
              rw [List.cons_append, walkWith_step fs _ fl cur c _ m hm hx hdot hdd, hn]
              exact hn' rest fl hc
            · split at h <;> cases h
            · rename_i t hn
              split at h
              · rename_i hc
                exact absurd hc.2 (by decide)
              · split at h
                · cases h
                · rename_i ht
                  obtain ⟨n', hn'⟩ := hk _ _ h
                  refine ⟨n', fun rest fl hc => ?_⟩
                  rw [List.cons_append, walkWith_step fs _ fl cur c _ m hm hx hdot hdd, hn]
                  have hcond : ¬ (pre ++ rest = [] ∧ fl = false) := by
                    rintro ⟨h1, h2⟩
                    rcases hc with hc | hc
                    · exact hc (List.append_eq_nil.mp h1).2
                    · rw [h2] at hc
                      cases hc
                  simp only [hcond, ht, if_false]
                  rw [← List.append_assoc]
                  exact hn' rest fl hc
    · cases h
    · cases h

theorem walkN_append (fs : FS) (D : Loc) (m0 : Nat) (n : Nat) :
    ∀ (pre : List Name) (cur : Loc),
      walkN fs true n cur pre = .ok (.found D (.dir m0)) →
      ∃ n', ∀ (rest : List Name) (fl : Bool), (rest ≠ [] ∨ fl = true) →
        walkN fs fl n cur (pre ++ rest) = walkN fs fl n' D rest := by
  induction n with
  | zero =>
    intro pre cur h
    rw [walkN_eq] at h
    obtain ⟨n', hn'⟩ := walkWith_append fs D m0 0 (fun _ _ hh => by cases hh) pre cur h
    exact ⟨n', fun rest fl hc => by rw [walkN_eq]; exact hn' rest fl hc⟩
  | succ n ih =>
    intro pre cur h
    rw [walkN_eq] at h
    obtain ⟨n', hn'⟩ := walkWith_append fs D m0 (n + 1) (fun s cs hh => ih cs s hh) pre cur h
    exact ⟨n', fun rest fl hc => by rw [walkN_eq]; exact hn' rest fl hc⟩

/-- A successful walk has passed through a directory after each of its components but the
last. -/
theorem walkWith_split (fs : FS) (fl : Bool) (n : Nat) (p2 : List Name) (hp2 : p2 ≠ [])
    (r : Res)
    (hk : ∀ s cs, linkCont fs fl n s (cs ++ p2) = .ok r →
      ∃ D1 m1, linkCont fs true n s cs = .ok (.found D1 (.dir m1))) :
    ∀ (p1 : List Name) (cur : Loc),
      walkWith fs (linkCont fs fl n) fl cur (p1 ++ p2) = .ok r →
      ∃ D1 m1, walkWith fs (linkCont fs true n) true cur p1 = .ok (.found D1 (.dir m1)) := by
  intro p1
  induction p1 with
  | nil =>
    intro cur h
    obtain ⟨c, rest, rfl⟩ := List.exists_cons_of_ne_nil hp2
    rw [List.nil_append, walkWith_cons] at h
    rw [walkWith_nil]
    split at h
    · rename_i m hm
      exact ⟨cur, m, rfl⟩
    · cases h
    · cases h
  | cons c p1 ih =>
    intro cur h
    have hne : p1 ++ p2 ≠ [] := fun hh => hp2 (List.append_eq_nil.mp hh).2
    rw [List.cons_append, walkWith_cons] at h
    rw [walkWith_cons]
    split at h
    · rename_i m hm
      split at h
      · cases h
      · rename_i hx
        rw [if_neg hx]
        split at h
        · rename_i hdot
          rw [if_pos hdot]
          exact ih _ h
        · rename_i hdot
          rw [if_neg hdot]
          split at h
          · rename_i hdd
            rw [if_pos hdd]
            exact ih _ h
          · rename_i hdd
            rw [if_neg hdd]
            split at h
            · cases h
            · rename_i m2 hn
              exact ih _ h
            · cases h
            · rename_i t hn
              try rw [if_neg (fun hh => hne hh.1)] at h
              rw [if_neg (fun hh : p1 = [] ∧ true = false => absurd hh.2 (by decide))]
              split at h
              · cases h
              · rename_i ht
                rw [if_neg ht]
                rw [← List.append_assoc] at h
                exact hk _ _ h
    · cases h
    · cases h

theorem walkN_split (fs : FS) (fl : Bool) (p2 : List Name) (hp2 : p2 ≠ []) (r : Res) (n : Nat) :
    ∀ (p1 : List Name) (cur : Loc),
      walkN fs fl n cur (p1 ++ p2) = .ok r →
      ∃ D1 m1, walkN fs true n cur p1 = .ok (.found D1 (.dir m1)) := by
  induction n with
  | zero =>
    intro p1 cur h
    rw [walkN_eq] at h ⊢
    exact walkWith_split fs fl 0 p2 hp2 r (fun _ _ hh => by cases hh) p1 cur h
  | succ n ih =>
    intro p1 cur h
    rw [walkN_eq] at h ⊢
    exact walkWith_split fs fl (n + 1) p2 hp2 r (fun s cs hh => ih cs s hh) p1 cur h

/-! ## Chains of directories -/

theorem createdLocs_append (D : Loc) (a b : List Name) :
    createdLocs D (a ++ b) = createdLocs D a ++ createdLocs (D ++ a) b := by
  induction a generalizing D with
  | nil => simp [createdLocs]
  | cons x xs ih => simp [createdLocs, ih]

theorem createdLocs_mem (D : Loc) (cs : List Name) (L : Loc) :
    L ∈ createdLocs D cs ↔ ∃ k, 1 ≤ k ∧ k ≤ cs.length ∧ L = D ++ cs.take k := by
  induction cs generalizing D with
  | nil =>
    simp only [createdLocs, List.not_mem_nil, List.length_nil, List.take_nil, false_iff]
    rintro ⟨k, h1, h2, _⟩
    omega
  | cons x xs ih =>
    simp only [createdLocs, List.mem_cons, ih, List.length_cons]
    constructor
    · rintro (h | ⟨k, h1, h2, h3⟩)
      · exact ⟨1, le_refl _, by omega, by simp [h]⟩
      · exact ⟨k + 1, by omega, by omega, by simp [h3]⟩
    · rintro ⟨k, h1, h2, h3⟩
      by_cases hk : k = 1
      · left
        subst hk
        simpa using h3
      · right
        obtain ⟨j, rfl⟩ : ∃ j, k = j + 1 := ⟨k - 1, by omega⟩
        exact ⟨j, by omega, by omega, by simpa using h3⟩

theorem withDirs_nil (fs : FS) (mode : Nat) : fs.withDirs [] mode = fs := by
  simp [FS.withDirs]

theorem withDirs_setNode (fs : FS) (locs : List Loc) (L : Loc) (mode : Nat) :
    (fs.withDirs locs mode).setNode L (some (.dir mode)) = fs.withDirs (locs ++ [L]) mode := by
  simp only [FS.withDirs, FS.setNode, FS.mk.injEq, and_true]
  funext q
  by_cases hq : q = L
  · simp [hq]
  · by_cases hm : q ∈ locs <;> simp [hq, hm]

theorem withDirs_old (fs : FS) (locs : List Loc) (mode : Nat)
    (hnone : ∀ L ∈ locs, fs.nodes L = none) :
    ∀ q n, fs.nodes q = some n → (fs.withDirs locs mode).nodes q = some n := by
  intro q n hq
  have : q ∉ locs := fun hm => by rw [hnone q hm] at hq; cases hq
  simp [FS.withDirs, this, hq]

/-- Walking entry names down a chain of directories of mode `mode` ends at the last of them. -/
theorem walkWith_chain (g : FS) (k : Loc → List Name → Except Nat Res) (fl : Bool) (mode : Nat) :
    ∀ (cs : List Name) (cur : Loc) (m : Nat), g.nodes cur = some (.dir m) →
      (cs ≠ [] → m &&& S_IXUSR ≠ 0) → (∀ c ∈ cs, IsEntryName c) →
      (∀ L ∈ createdLocs cur cs, g.nodes L = some (.dir mode)) →
      (2 ≤ cs.length → mode &&& S_IXUSR ≠ 0) →
      walkWith g k fl cur cs = .ok (.found (cur ++ cs) (.dir (if cs = [] then m else mode))) := by
  intro cs
  induction cs with
  | nil =>
    intro cur m hcur _ _ _ _
    rw [walkWith_nil, hcur]
    simp
  | cons c cs ih =>
    intro cur m hcur hx hname hlocs hmode
    have hc := hname c (by simp)
    have hnode : g.nodes (cur ++ [c]) = some (.dir mode) := hlocs _ (by simp [createdLocs])
    rw [walkWith_step g k fl cur c cs m hcur (hx (by simp)) hc.2.1 hc.2.2, hnode]
    simp only []
    rw [ih (cur ++ [c]) mode hnode
      (fun hne => hmode (by
        cases cs with
        | nil => exact absurd rfl hne
        | cons _ _ => simp))
      (fun x hx' => hname x (by simp [hx']))
      (fun L hL => hlocs L (by simp [createdLocs, hL]))
      (fun h2 => hmode (by simp only [List.length_cons] at h2 ⊢; omega))]
    simp

/-- Walking down a chain of directories to an entry that is not there. -/
theorem walkWith_chain_absent (g : FS) (k : Loc → List Name → Except Nat Res) (fl : Bool)
    (mode : Nat) :
    ∀ (cs : List Name) (cur : Loc) (m : Nat) (c : Name), g.nodes cur = some (.dir m) →
      m &&& S_IXUSR ≠ 0 → (∀ x ∈ cs, IsEntryName x) → IsEntryName c →
      (∀ L ∈ createdLocs cur cs, g.nodes L = some (.dir mode)) →
      (cs ≠ [] → mode &&& S_IXUSR ≠ 0) →
      g.nodes (cur ++ cs ++ [c]) = none →
      walkWith g k fl cur (cs ++ [c]) = .ok (.absent (cur ++ cs) c) := by
  intro cs
  induction cs with
  | nil =>
    intro cur m c hcur hx _ hc _ _ hnone
    rw [List.nil_append, walkWith_step g k fl cur c [] m hcur hx hc.2.1 hc.2.2]
    rw [List.append_nil] at hnone
    rw [hnone]
    simp
  | cons x cs ih =>
    intro cur m c hcur hx hname hc hlocs hmode hnone
    have hxn := hname x (by simp)
    have hnode : g.nodes (cur ++ [x]) = some (.dir mode) := hlocs _ (by simp [createdLocs])
    rw [List.cons_append, walkWith_step g k fl cur x _ m hcur hx hxn.2.1 hxn.2.2, hnode]
    simp only []
    rw [ih (cur ++ [x]) mode c hnode (hmode (by simp))
      (fun y hy => hname y (by simp [hy])) hc
      (fun L hL => hlocs L (by simp [createdLocs, hL]))
      (fun _ => hmode (by simp))
      (by simpa using hnone)]
    simp

/-- Walking to an entry below a missing entry fails with `ENOENT`; to the missing entry itself
it reports the entry absent. -/
theorem walkWith_missing (g : FS) (k : Loc → List Name → Except Nat Res) (fl : Bool)
    (cur : Loc) (m : Nat) (c : Name) (rest : List Name) (hcur : g.nodes cur = some (.dir m))
    (hx : m &&& S_IXUSR ≠ 0) (hc : IsEntryName c) (hnone : g.nodes (cur ++ [c]) = none) :
    walkWith g k fl cur (c :: rest) =
      if rest = [] then .ok (.absent cur c) else .error ENOENT := by
  rw [walkWith_step g k fl cur c rest m hcur hx hc.2.1 hc.2.2, hnone]

/-! ## Resolving well-formed paths -/

theorem resolve_mkPath (fs : FS) (fl : Bool) (abs : Bool) (cs : List Name) (h : cs ≠ [])
    (hc : ∀ c ∈ cs, IsComponent c) :
    fs.resolve fl (mkPath abs cs) = walkN fs fl SYMLOOP_MAX (fs.startLoc abs) cs := by
  obtain ⟨h1, h2, h3⟩ := mkPath_shape abs cs h hc
  have hstart : (if (mkPath abs cs).head? = some '/' then [] else fs.cwd) = fs.startLoc abs := by
    cases abs
    · have : ¬ (mkPath false cs).head? = some '/' := fun hh => by
        have := h2.mp hh
        cases this
      simp [this, FS.startLoc]
    · simp [h2.mpr rfl, FS.startLoc]
  unfold FS.resolve
  rw [if_neg h1, h3, Bool.or_false, hstart, components_mkPath abs cs hc]
  split
  · rename_i heq
    rw [heq]
  · rename_i heq
    rw [heq]
    simp
  · rfl

theorem withDirs_startLoc (fs : FS) (locs : List Loc) (mode : Nat) (abs : Bool) :
    (fs.withDirs locs mode).startLoc abs = fs.startLoc abs := rfl

/-- In the initial state: the path down to the first missing level reports that entry absent,
any longer path fails with `ENOENT`. -/
theorem resolve_missing (fs : FS) (fl abs : Bool) (pre : List Name) (D : Loc) (m0 : Nat)
    (c : Name) (rest : List Name)
    (hpre : walkN fs true SYMLOOP_MAX (fs.startLoc abs) pre = .ok (.found D (.dir m0)))
    (hpc : ∀ x ∈ pre, IsComponent x) (hc : IsEntryName c) (hrest : ∀ x ∈ rest, IsComponent x)
    (hx : m0 &&& S_IXUSR ≠ 0) (hnone : fs.nodes (D ++ [c]) = none) :
    fs.resolve fl (mkPath abs (pre ++ c :: rest)) =
      if rest = [] then .ok (.absent D c) else .error ENOENT := by
  have hD : fs.nodes D = some (.dir m0) := walkN_sound fs true _ _ _ _ hpre
  rw [resolve_mkPath fs fl abs _ (by simp)
    (by
      intro x hxm
      rcases List.mem_append.mp hxm with hh | hh
      · exact hpc x hh
      · rcases List.mem_cons.mp hh with hh | hh
        · rw [hh]; exact hc.1
        · exact hrest x hh)]
  obtain ⟨n', hn'⟩ := walkN_append fs D m0 _ pre _ hpre
  rw [hn' (c :: rest) fl (Or.inl (by simp)), walkN_eq]
  exact walkWith_missing fs _ fl D m0 c rest hD hx hc hnone

/-- After the levels `ms` have been created below `D`: every level resolves to its directory. -/
theorem resolve_created (fs : FS) (abs : Bool) (pre ms a : List Name) (D : Loc)
    (m0 mode : Nat)
    (hpre : walkN fs true SYMLOOP_MAX (fs.startLoc abs) pre = .ok (.found D (.dir m0)))
    (hpc : ∀ x ∈ pre, IsComponent x) (hms : ∀ x ∈ ms, IsEntryName x)
    (hmiss : ∀ L ∈ createdLocs D ms, fs.nodes L = none)
    (ha : a <+: ms) (hne : pre ++ a ≠ [])
    (hx : a ≠ [] → m0 &&& S_IXUSR ≠ 0) (hmx : 2 ≤ a.length → mode &&& S_IXUSR ≠ 0) :
    (fs.withDirs (createdLocs D ms) mode).resolve true (mkPath abs (pre ++ a)) =
      .ok (.found (D ++ a) (.dir (if a = [] then m0 else mode))) := by
  obtain ⟨b, hb⟩ := ha
  have hsub := withDirs_old fs (createdLocs D ms) mode hmiss
  have hD : fs.nodes D = some (.dir m0) := walkN_sound fs true _ _ _ _ hpre
  have hpre2 := walkN_mono fs _ true hsub _ _ _ _ _ hpre
  have hac : ∀ x ∈ a, IsEntryName x := fun x hxa => hms x (by rw [← hb]; simp [hxa])
  rw [resolve_mkPath _ true abs _ hne
    (by
      intro x hxm
      rcases List.mem_append.mp hxm with hh | hh
      · exact hpc x hh
      · exact (hac x hh).1)]
  rw [withDirs_startLoc]
  obtain ⟨n', hn'⟩ := walkN_append _ D m0 _ pre _ hpre2
  rw [hn' a true (Or.inr rfl), walkN_eq]
  refine walkWith_chain _ _ true mode a D m0 (hsub _ _ hD) hx hac ?_ hmx
  intro L hL
  have hmem : L ∈ createdLocs D ms := by
    rw [← hb, createdLocs_append]
    exact List.mem_append_left _ hL
  simp [FS.withDirs, hmem]

/-- After the levels `ms` have been created below `D`, the next level is reported absent in
the last of them. -/
theorem resolve_next (fs : FS) (fl abs : Bool) (pre ms : List Name) (c : Name) (D : Loc)
    (m0 mode : Nat)
    (hpre : walkN fs true SYMLOOP_MAX (fs.startLoc abs) pre = .ok (.found D (.dir m0)))
    (hpc : ∀ x ∈ pre, IsComponent x) (hms : ∀ x ∈ ms, IsEntryName x) (hc : IsEntryName c)
    (hmiss : ∀ L ∈ createdLocs D (ms ++ [c]), fs.nodes L = none)
    (hx : m0 &&& S_IXUSR ≠ 0) (hmx : ms ≠ [] → mode &&& S_IXUSR ≠ 0) :
    (fs.withDirs (createdLocs D ms) mode).resolve fl (mkPath abs (pre ++ ms ++ [c])) =
      .ok (.absent (D ++ ms) c) := by
  have hmiss1 : ∀ L ∈ createdLocs D ms, fs.nodes L = none := fun L hL =>
    hmiss L (by rw [createdLocs_append]; exact List.mem_append_left _ hL)
  have hsub := withDirs_old fs (createdLocs D ms) mode hmiss1
  have hD : fs.nodes D = some (.dir m0) := walkN_sound fs true _ _ _ _ hpre
  have hpre2 := walkN_mono fs _ true hsub _ _ _ _ _ hpre
  rw [resolve_mkPath _ fl abs _ (by simp)
    (by
      intro x hxm
      rcases List.mem_append.mp hxm with hh | hh
      · rcases List.mem_append.mp hh with hh | hh
        · exact hpc x hh
        · exact (hms x hh).1
      · rw [List.mem_singleton.mp hh]; exact hc.1)]
  rw [withDirs_startLoc, List.append_assoc]
  obtain ⟨n', hn'⟩ := walkN_append _ D m0 _ pre _ hpre2
  rw [hn' (ms ++ [c]) fl (Or.inl (by simp)), walkN_eq]
  refine walkWith_chain_absent _ _ fl mode ms D m0 c (hsub _ _ hD) hx hms hc ?_ hmx ?_
  · intro L hL
    simp [FS.withDirs, hL]
  · have hlast : D ++ ms ++ [c] ∈ createdLocs D (ms ++ [c]) := by
      rw [createdLocs_append]
      simp [createdLocs]
    have hnot : D ++ ms ++ [c] ∉ createdLocs D ms := by
      intro hm
      obtain ⟨k, _, hk2, hk3⟩ := (createdLocs_mem D ms _).mp hm
      have := congrArg List.length hk3
      simp only [List.length_append, List.length_singleton, List.length_take] at this
      omega
    have hlast2 := hmiss _ hlast
    rw [List.append_assoc] at hnot hlast2
    simp [FS.withDirs, hnot, hlast2]

/-! ## Recursive directory creation: effect on the file system -/

theorem mkdir_of_absent (fs : FS) (name : CStr) (mode : Nat) (parent : Loc) (c : Name) (m : Nat)
    (h : fs.resolve false name = .ok (.absent parent c))
    (hp : fs.nodes parent = some (.dir m)) (hw : m &&& S_IWUSR ≠ 0) :
    fs.mkdir name mode = .ok (fs.setNode (parent ++ [c]) (some (.dir mode))) := by
  simp [FS.mkdir, h, FS.mayWrite, hp, hw]

theorem mkdir_of_error (fs : FS) (name : CStr) (mode e : Nat)
    (h : fs.resolve false name = .error e) : fs.mkdir name mode = .error e := by
  simp [FS.mkdir, h]

theorem stat_of_dir (fs : FS) (name : CStr) (loc : Loc) (m : Nat)
    (h : fs.resolve true name = .ok (.found loc (.dir m))) :
    fs.stat name = .ok { st_mode := S_IFDIR ||| (m &&& ALLPERMS), st_size := 4096 } := by
  simp only [FS.stat, h, FS.statNode]

theorem DirectoryExists_of_dir (w : World) (name : CStr) (loc : Loc) (m : Nat)
    (h : w.fs.resolve true name = .ok (.found loc (.dir m))) :
    OS.DirectoryExists w name = (true, w.log (.statCall name)) := by
  rw [DirectoryExists_ok w name _ (stat_of_dir w.fs name loc m h)]
  have := (statNode_dir w.fs m _ rfl).1
  rw [this]

theorem DirectoryExists_of_missing (w : World) (name : CStr)
    (h : (∃ p c, w.fs.resolve true name = .ok (.absent p c)) ∨
      w.fs.resolve true name = .error ENOENT) :
    OS.DirectoryExists w name = (false, { w.log (.statCall name) with errno := ENOENT }) := by
  apply DirectoryExists_error
  rcases h with ⟨p, c, h⟩ | h <;> simp [FS.stat, h]

/-- The recursive branch: the directory is not there, the first `mkdir` fails with `ENOENT`,
and the path has a separator. -/
theorem CreateDirectory_recurse_fs (w : World) (name : CStr) (mode pos : Nat)
    (hdir : (OS.DirectoryExists w name).1 = false)
    (hmk : w.fs.mkdir name mode = .error ENOENT)
    (hpos : find_last_of name '/' = some pos) :
    ∃ w1 : World, w1.fs = w.fs ∧
      OS.CreateDirectory w name mode =
        (if !(OS.CreateDirectory w1 (substr name 0 pos) mode).1 then
          (false, (OS.CreateDirectory w1 (substr name 0 pos) mode).2)
        else
          ((sys_mkdir (OS.CreateDirectory w1 (substr name 0 pos) mode).2 name mode).1 == 0,
            (sys_mkdir (OS.CreateDirectory w1 (substr name 0 pos) mode).2 name mode).2)) := by
  have h0 : (OS.DirectoryExists (w.log (.enter name mode)) name).1 = false := by
    rw [DirectoryExists_fst_log]; exact hdir
  have hfs : (OS.DirectoryExists (w.log (.enter name mode)) name).2.fs = w.fs := by
    rw [DirectoryExists_fs]; rfl
  have hsys := sys_mkdir_error (OS.DirectoryExists (w.log (.enter name mode)) name).2 name mode
    ENOENT (by rw [hfs]; exact hmk)
  refine ⟨(sys_mkdir (OS.DirectoryExists (w.log (.enter name mode)) name).2 name mode).2, ?_, ?_⟩
  · rw [hsys]
    exact hfs
  · exact CreateDirectory_recurse w name mode pos h0 (by rw [hsys]; show (-1 : Int) ≠ 0; decide)
      (by rw [hsys]) hpos

/-- The branch where the first `mkdir` succeeds. -/
theorem CreateDirectory_direct_fs (w : World) (name : CStr) (mode : Nat) (fs1 : FS)
    (hdir : (OS.DirectoryExists w name).1 = false)
    (hmk : w.fs.mkdir name mode = .ok fs1) :
    (OS.CreateDirectory w name mode).1 = true ∧ (OS.CreateDirectory w name mode).2.fs = fs1 := by
  have h0 : (OS.DirectoryExists (w.log (.enter name mode)) name).1 = false := by
    rw [DirectoryExists_fst_log]; exact hdir
  have hfs : (OS.DirectoryExists (w.log (.enter name mode)) name).2.fs = w.fs := by
    rw [DirectoryExists_fs]; rfl
  have hsys := sys_mkdir_ok (OS.DirectoryExists (w.log (.enter name mode)) name).2 name mode
    fs1 (by rw [hfs]; exact hmk)
  rw [CreateDirectory_direct w name mode h0 (by rw [hsys]), hsys]
  exact ⟨rfl, rfl⟩

/-- The branch where the directory is already there. -/
theorem CreateDirectory_present_fs (w : World) (name : CStr) (mode : Nat)
    (hdir : (OS.DirectoryExists w name).1 = true) :
    (OS.CreateDirectory w name mode).1 = true ∧ (OS.CreateDirectory w name mode).2.fs = w.fs ∧
      (OS.CreateDirectory w name mode).2.trace =
        w.trace ++ [.enter name mode, .statCall name] := by
  have h0 : (OS.DirectoryExists (w.log (.enter name mode)) name).1 = true := by
    rw [DirectoryExists_fst_log]; exact hdir
  rw [CreateDirectory_present w name mode h0]
  refine ⟨rfl, ?_, ?_⟩
  · rw [DirectoryExists_fs]; rfl
  · rw [DirectoryExists_trace, log_trace]
    simp

theorem sys_mkdir_ok_fs (w : World) (name : CStr) (mode : Nat) (fs1 : FS)
    (h : w.fs.mkdir name mode = .ok fs1) :
    (sys_mkdir w name mode).1 = 0 ∧ (sys_mkdir w name mode).2.fs = fs1 := by
  rw [sys_mkdir_ok w name mode fs1 h]
  exact ⟨rfl, rfl⟩

theorem sys_mkdir_error_fs (w : World) (name : CStr) (mode e : Nat)
    (h : w.fs.mkdir name mode = .error e) :
    (sys_mkdir w name mode).1 = -1 ∧ (sys_mkdir w name mode).2.fs = w.fs ∧
      (sys_mkdir w name mode).2.errno = e := by
  rw [sys_mkdir_error w name mode e h]
  exact ⟨rfl, rfl, rfl⟩

/-- The effect of `OS::CreateDirectory` on a well-formed path: below the directory `D` that the
existing part `pre` of the path leads to, the missing levels `ms` are created, one directory of
mode `mode` each, and nothing else changes. -/
theorem CreateDirectory_core (fs : FS) (abs : Bool) (pre : List Name) (D : Loc) (m0 mode : Nat)
    (hpre : walkN fs true SYMLOOP_MAX (fs.startLoc abs) pre = .ok (.found D (.dir m0)))
    (hpc : ∀ x ∈ pre, IsComponent x) :
    ∀ ms : List Name, (∀ x ∈ ms, IsEntryName x) →
      (∀ L ∈ createdLocs D ms, fs.nodes L = none) →
      (ms ≠ [] → m0 &&& S_IWUSR ≠ 0 ∧ m0 &&& S_IXUSR ≠ 0) →
      (2 ≤ ms.length → mode &&& S_IWUSR ≠ 0 ∧ mode &&& S_IXUSR ≠ 0) →
      pre ++ ms ≠ [] →
      ∀ w : World, w.fs = fs →
        (OS.CreateDirectory w (mkPath abs (pre ++ ms)) mode).1 = true ∧
          (OS.CreateDirectory w (mkPath abs (pre ++ ms)) mode).2.fs =
            fs.withDirs (createdLocs D ms) mode := by
  intro ms
  induction ms using List.reverseRecOn with
  | nil =>
    intro _ hmiss _ _ hne w hw
    subst hw
    have hres := resolve_created w.fs abs pre [] [] D m0 mode hpre hpc (by simp) hmiss
      (List.prefix_refl _) hne (by simp) (by simp)
    simp only [createdLocs, withDirs_nil, if_true] at hres
    have hde := DirectoryExists_of_dir w _ _ _ hres
    obtain ⟨h1, h2, _⟩ := CreateDirectory_present_fs w (mkPath abs (pre ++ [])) mode
      (by rw [hde])
    simp only [createdLocs, withDirs_nil]
    exact ⟨h1, h2⟩
  | append_singleton ms c ih =>
    intro hname hmiss hw0 hmode hne w hw
    subst hw
    have hc : IsEntryName c := hname c (by simp)
    have hms : ∀ x ∈ ms, IsEntryName x := fun x hx => hname x (by simp [hx])
    obtain ⟨hm0w, hm0x⟩ := hw0 (by simp)
    have hD : w.fs.nodes D = some (.dir m0) := walkN_sound w.fs true _ _ _ _ hpre
    obtain ⟨c1, rest, hcr⟩ : ∃ c1 rest, ms ++ [c] = c1 :: rest := by
      cases ms with
      | nil => exact ⟨c, [], rfl⟩
      | cons x xs => exact ⟨x, xs ++ [c], rfl⟩
    have hc1 : IsEntryName c1 := hname c1 (by rw [hcr]; simp)
    have hrest : ∀ x ∈ rest, IsComponent x := fun x hx => (hname x (by rw [hcr]; simp [hx])).1
    have hnone1 : w.fs.nodes (D ++ [c1]) = none :=
      hmiss _ (by rw [hcr]; simp [createdLocs])
    have hstat := resolve_missing w.fs true abs pre D m0 c1 rest hpre hpc hc1 hrest hm0x hnone1
    have hde : (OS.DirectoryExists w (mkPath abs (pre ++ (ms ++ [c])))).1 = false := by
      rw [hcr, DirectoryExists_of_missing w _ (by
        rw [hstat]
        by_cases hr : rest = []
        · exact Or.inl ⟨D, c1, by simp [hr]⟩
        · exact Or.inr (by simp [hr]))]
    by_cases hnil : ms = []
    · subst hnil
      simp only [List.nil_append, List.cons.injEq] at hcr
      obtain ⟨rfl, rfl⟩ := hcr
      have hres := resolve_missing w.fs false abs pre D m0 c [] hpre hpc hc1 hrest hm0x hnone1
      simp only [if_true] at hres
      have hmk := mkdir_of_absent w.fs _ mode D c m0 hres hD hm0w
      obtain ⟨h1, h2⟩ := CreateDirectory_direct_fs w _ mode _ hde hmk
      refine ⟨h1, ?_⟩
      rw [h2]
      have := withDirs_setNode w.fs [] (D ++ [c]) mode
      rw [withDirs_nil] at this
      simpa [createdLocs] using this
    · have hrne : rest ≠ [] := by
        intro hr
        subst hr
        cases ms with
        | nil => exact hnil rfl
        | cons x xs =>
          have := congrArg List.length hcr
          simp at this
      have hres := resolve_missing w.fs false abs pre D m0 c1 rest hpre hpc hc1 hrest hm0x hnone1
      rw [if_neg hrne, ← hcr] at hres
      have hmk := mkdir_of_error w.fs _ mode _ hres
      have hlen : 2 ≤ (ms ++ [c]).length := by
        cases ms with
        | nil => exact absurd rfl hnil
        | cons x xs => simp
      obtain ⟨hmw, hmx⟩ := hmode hlen
      have hpm : pre ++ ms ≠ [] := fun hh => hnil (List.append_eq_nil.mp hh).2
      obtain ⟨pos, hpos, hsub⟩ := mkPath_parent abs (pre ++ ms) c hpm hc.1.2
      rw [List.append_assoc] at hpos hsub
      obtain ⟨w1, hw1, heq⟩ := CreateDirectory_recurse_fs w _ mode pos hde hmk hpos
      have hmiss1 : ∀ L ∈ createdLocs D ms, w.fs.nodes L = none := fun L hL =>
        hmiss L (by rw [createdLocs_append]; exact List.mem_append_left _ hL)
      obtain ⟨hp1, hp2⟩ := ih hms hmiss1 (fun _ => ⟨hm0w, hm0x⟩)
        (fun h2 => hmode (by simp only [List.length_append, List.length_singleton]; omega))
        hpm w1 hw1
      rw [heq, hsub, hp1]
      simp only [Bool.not_true, Bool.false_eq_true, if_false]
      have hnext := resolve_next w.fs false abs pre ms c D m0 mode hpre hpc hms hc hmiss hm0x
        (fun _ => hmx)
      rw [← hp2, List.append_assoc] at hnext
      have hlastdir : (OS.CreateDirectory w1 (mkPath abs (pre ++ ms)) mode).2.fs.nodes (D ++ ms)
          = some (.dir mode) := by
        rw [hp2]
        have hmem : D ++ ms ∈ createdLocs D ms := by
          rw [createdLocs_mem]
          refine ⟨ms.length, ?_, le_refl _, by simp⟩
          cases ms with
          | nil => exact absurd rfl hnil
          | cons _ _ => simp
        simp [FS.withDirs, hmem]
      have hmk2 := mkdir_of_absent _ _ mode (D ++ ms) c mode hnext hlastdir hmw
      obtain ⟨h1, h2⟩ := sys_mkdir_ok_fs _ _ mode _ hmk2
      rw [h1, h2, hp2, withDirs_setNode, createdLocs_append]
      simp [createdLocs]

theorem DirectoryExists_fst (w : World) (name : CStr) :
    (OS.DirectoryExists w name).1 = w.fs.isDir name := by
  unfold FS.isDir
  cases h : w.fs.stat name with
  | ok st => rw [DirectoryExists_ok w name st h]
  | error e => rw [DirectoryExists_error w name e h]

/-- Recursion succeeded, the second `mkdir` fails: the call fails and keeps what the recursion
created. -/
theorem CreateDirectory_retry_fails (fs g : FS) (name : CStr) (mode pos e : Nat)
    (hdir : fs.isDir name = false) (hmk : fs.mkdir name mode = .error ENOENT)
    (hpos : find_last_of name '/' = some pos)
    (hsub : ∀ w1 : World, w1.fs = fs →
      (OS.CreateDirectory w1 (substr name 0 pos) mode).1 = true ∧
        (OS.CreateDirectory w1 (substr name 0 pos) mode).2.fs = g)
    (hmk2 : g.mkdir name mode = .error e) :
    ∀ w : World, w.fs = fs →
      (OS.CreateDirectory w name mode).1 = false ∧ (OS.CreateDirectory w name mode).2.fs = g := by
  intro w hw
  subst hw
  obtain ⟨w1, hw1, heq⟩ := CreateDirectory_recurse_fs w name mode pos
    (by rw [DirectoryExists_fst]; exact hdir) hmk hpos
  obtain ⟨h1, h2⟩ := hsub w1 hw1
  obtain ⟨h3, h4, _⟩ := sys_mkdir_error_fs (OS.CreateDirectory w1 (substr name 0 pos) mode).2
    name mode e (by rw [h2]; exact hmk2)
  rw [heq, h1]
  simp only [Bool.not_true, Bool.false_eq_true, if_false]
  rw [h3, h4, h2]
  exact ⟨rfl, rfl⟩

/-- Recursion failed: the call fails without a second `mkdir`. -/
theorem CreateDirectory_parent_fails (fs g : FS) (name : CStr) (mode pos : Nat)
    (hdir : fs.isDir name = false) (hmk : fs.mkdir name mode = .error ENOENT)
    (hpos : find_last_of name '/' = some pos)
    (hsub : ∀ w1 : World, w1.fs = fs →
      (OS.CreateDirectory w1 (substr name 0 pos) mode).1 = false ∧
        (OS.CreateDirectory w1 (substr name 0 pos) mode).2.fs = g) :
    ∀ w : World, w.fs = fs →
      (OS.CreateDirectory w name mode).1 = false ∧ (OS.CreateDirectory w name mode).2.fs = g := by
  intro w hw
  subst hw
  obtain ⟨w1, hw1, heq⟩ := CreateDirectory_recurse_fs w name mode pos
    (by rw [DirectoryExists_fst]; exact hdir) hmk hpos
  obtain ⟨h1, h2⟩ := hsub w1 hw1
  rw [heq, h1]
  exact ⟨rfl, h2⟩

/-- Creating the single missing level `a` in a fresh root directory. -/
theorem CreateDirectory_fresh_a (rootMode mode : Nat) (hw : rootMode &&& S_IWUSR ≠ 0)
    (hx : rootMode &&& S_IXUSR ≠ 0) :
    ∀ w1 : World, w1.fs = rootOnly rootMode →
      (OS.CreateDirectory w1 "a".toList mode).1 = true ∧
        (OS.CreateDirectory w1 "a".toList mode).2.fs =
          (rootOnly rootMode).withDirs [["a".toList]] mode := by
  intro w1 hw1
  have h := CreateDirectory_core (rootOnly rootMode) false [] [] rootMode mode rfl (by simp)
    ["a".toList] (by simp [IsEntryName, IsComponent, dot, dotdot])
    (by simp [createdLocs, rootOnly]) (fun _ => ⟨hw, hx⟩) (by simp) (by simp) w1 hw1
  exact h

/-- After the call every level of the path, old or new, is a directory. -/
theorem levels_are_directories (fs : FS) (abs : Bool) (pre ms : List Name) (D : Loc)
    (m0 mode : Nat)
    (hpre : walkN fs true SYMLOOP_MAX (fs.startLoc abs) pre = .ok (.found D (.dir m0)))
    (hpc : ∀ x ∈ pre, IsComponent x) (hms : ∀ x ∈ ms, IsEntryName x)
    (hmiss : ∀ L ∈ createdLocs D ms, fs.nodes L = none)
    (hx : ms ≠ [] → m0 &&& S_IXUSR ≠ 0) (hmx : 2 ≤ ms.length → mode &&& S_IXUSR ≠ 0)
    (k : Nat) (hk1 : 1 ≤ k) (hk2 : k ≤ (pre ++ ms).length) :
    ∃ loc m, (fs.withDirs (createdLocs D ms) mode).resolve true
      (mkPath abs ((pre ++ ms).take k)) = .ok (.found loc (.dir m)) := by
  by_cases hkp : k ≤ pre.length
  · have htake : (pre ++ ms).take k = pre.take k := List.take_append_of_le_length hkp
    have hne : pre.take k ≠ [] := by
      intro hh
      have := congrArg List.length hh
      simp only [List.length_take, List.length_nil] at this
      omega
    have hcomp : ∀ x ∈ pre.take k, IsComponent x := fun x hx' =>
      hpc x (List.mem_of_mem_take hx')
    have hwalk : ∃ D1 m1, walkN fs true SYMLOOP_MAX (fs.startLoc abs) (pre.take k) =
        .ok (.found D1 (.dir m1)) := by
      by_cases hd : pre.drop k = []
      · have : pre.take k = pre := by
          have h1 := List.take_append_drop k pre
          rw [hd, List.append_nil] at h1
          exact h1
        rw [this]
        exact ⟨D, m0, hpre⟩
      · have h1 := hpre
        rw [← List.take_append_drop k pre] at h1
        exact walkN_split fs true (pre.drop k) hd _ _ _ _ h1
    obtain ⟨D1, m1, hw1⟩ := hwalk
    have hw2 := walkN_mono fs _ true (withDirs_old fs (createdLocs D ms) mode hmiss)
      _ _ _ _ _ hw1
    refine ⟨D1, m1, ?_⟩
    rw [htake, resolve_mkPath _ true abs _ hne hcomp, withDirs_startLoc]
    exact hw2
  · have hlen : pre.length ≤ k := by omega
    have htake : (pre ++ ms).take k = pre ++ ms.take (k - pre.length) := by
      rw [List.take_append_eq_append_take, List.take_of_length_le hlen]
    have hane : ms.take (k - pre.length) ≠ [] := by
      intro hh
      have := congrArg List.length hh
      simp only [List.length_take, List.length_nil, List.length_append] at this hk2
      omega
    have hmsne : ms ≠ [] := by
      intro hh
      rw [hh] at hane
      simp at hane
    rw [htake]
    exact ⟨_, _, resolve_created fs abs pre ms (ms.take (k - pre.length)) D m0 mode hpre hpc
      hms hmiss (List.take_prefix _ _) (by simp [hane]) (fun _ => hx hmsne)
      (fun h2 => hmx (le_trans h2 (by simp [List.length_take])))⟩

/-- C1, as the code has it: for a path made of non-empty components separated by single `/`,
absolute or relative, whose existing part `pre` leads to a directory `D` the caller may write to
and search, whose remaining components `ms` are entry names (not `.` or `..`) for which nothing
exists yet, and, when two or more levels are missing, for a mode that lets the owner write and
search the directories it creates: `OS::CreateDirectory(path, mode)` returns true, afterwards
every level of the path is a directory, exactly the missing levels have been created, each with
the requested mode, and everything else is as it was. -/
theorem CreateDirectory_creates_missing (w : World) (abs : Bool) (pre ms : List Name) (D : Loc)
    (m0 mode : Nat)
    (hpc : ∀ x ∈ pre, IsComponent x) (hms : ∀ x ∈ ms, IsEntryName x) (hne : pre ++ ms ≠ [])
    (hpre : walkN w.fs true SYMLOOP_MAX (w.fs.startLoc abs) pre = .ok (.found D (.dir m0)))
    (hmiss : ∀ L ∈ createdLocs D ms, w.fs.nodes L = none)
    (hw0 : ms ≠ [] → m0 &&& S_IWUSR ≠ 0 ∧ m0 &&& S_IXUSR ≠ 0)
    (hmode : 2 ≤ ms.length → mode &&& S_IWUSR ≠ 0 ∧ mode &&& S_IXUSR ≠ 0) :
    (OS.CreateDirectory w (mkPath abs (pre ++ ms)) mode).1 = true ∧
      (∀ k, 1 ≤ k → k ≤ (pre ++ ms).length →
        (OS.DirectoryExists (OS.CreateDirectory w (mkPath abs (pre ++ ms)) mode).2
          (mkPath abs ((pre ++ ms).take k))).1 = true) ∧
      (∀ L ∈ createdLocs D ms,
        (OS.CreateDirectory w (mkPath abs (pre ++ ms)) mode).2.fs.nodes L = some (.dir mode)) ∧
      (∀ q, q ∉ createdLocs D ms →
        (OS.CreateDirectory w (mkPath abs (pre ++ ms)) mode).2.fs.nodes q = w.fs.nodes q) ∧
      (OS.CreateDirectory w (mkPath abs (pre ++ ms)) mode).2.fs.inodes = w.fs.inodes ∧
      (OS.CreateDirectory w (mkPath abs (pre ++ ms)) mode).2.fs.cwd = w.fs.cwd ∧
      (OS.CreateDirectory w (mkPath abs (pre ++ ms)) mode).2.fs.ofiles = w.fs.ofiles := by
  obtain ⟨h1, h2⟩ := CreateDirectory_core w.fs abs pre D m0 mode hpre hpc ms hms hmiss hw0
    hmode hne w rfl
  refine ⟨h1, ?_, ?_, ?_, ?_, ?_, ?_⟩
  · intro k hk1 hk2
    obtain ⟨loc, m, hres⟩ := levels_are_directories w.fs abs pre ms D m0 mode hpre hpc hms
      hmiss (fun h => (hw0 h).2) (fun h => (hmode h).2) k hk1 hk2
    rw [← h2] at hres
    rw [DirectoryExists_of_dir _ _ loc m hres]
  · intro L hL
    rw [h2]
    simp [FS.withDirs, hL]
  · intro q hq
    rw [h2]
    simp [FS.withDirs, hq]
  · rw [h2]; rfl
  · rw [h2]; rfl
  · rw [h2]; rfl

/-- C1 at the path `/a/b/c`: in a file system that holds only a writable root directory all
three levels are created; when `/a` exists already, only `/a/b` and `/a/b/c` are created and
`/a` is left as it was. -/
theorem CreateDirectory_creates_missing_witness :
    ((OS.CreateDirectory (freshWorld 0o755) "/a/b/c".toList 0o755).1 = true ∧
      (∀ L ∈ [["a".toList], ["a".toList, "b".toList], ["a".toList, "b".toList, "c".toList]],
        (OS.CreateDirectory (freshWorld 0o755) "/a/b/c".toList 0o755).2.fs.nodes L
          = some (.dir 0o755)) ∧
      (OS.DirectoryExists (OS.CreateDirectory (freshWorld 0o755) "/a/b/c".toList 0o755).2
        "/a/b/c".toList).1 = true) ∧
    ((OS.CreateDirectory worldWithA "/a/b/c".toList 0o700).1 = true ∧
      (∀ L ∈ [["a".toList, "b".toList], ["a".toList, "b".toList, "c".toList]],
        (OS.CreateDirectory worldWithA "/a/b/c".toList 0o700).2.fs.nodes L
          = some (.dir 0o700)) ∧
      (OS.CreateDirectory worldWithA "/a/b/c".toList 0o700).2.fs.nodes ["a".toList]
        = some (.dir 0o755)) := by
  have h := CreateDirectory_creates_missing (freshWorld 0o755) true []
    ["a".toList, "b".toList, "c".toList] [] 0o755 0o755 (by simp)
    (by simp [IsEntryName, IsComponent, dot, dotdot]) (by simp) rfl
    (by simp [createdLocs, freshWorld, rootOnly])
    (fun _ => ⟨by decide, by decide⟩) (fun _ => ⟨by decide, by decide⟩)
  have h2 := CreateDirectory_creates_missing worldWithA true ["a".toList]
    ["b".toList, "c".toList] ["a".toList] 0o755 0o700
    (by simp [IsComponent]) (by simp [IsEntryName, IsComponent, dot, dotdot]) (by simp) rfl
    (by decide)
    (fun _ => ⟨by decide, by decide⟩) (fun _ => ⟨by decide, by decide⟩)
  exact ⟨⟨h.1, h.2.2.1, h.2.1 3 (by decide) (by decide)⟩, h2.1, h2.2.2.1,
    (h2.2.2.2.1 ["a".toList] (by decide)).trans rfl⟩

/-- C1 fails as stated. In a file system that holds only a writable root directory, which is
also the working directory: the path `a/./b` consists of the non-empty components `a`, `.`, `b`
separated by single `/`, and `OS::CreateDirectory` returns false on it, having created only
`a` (the second `mkdir("a/.")` fails with `EEXIST`); and for the path `a/b` with mode `0500` it
returns false as well, having created only `a` (`mkdir("a/b")` fails with `EACCES`). -/
theorem CreateDirectory_creates_missing_counterexample :
    (components "a/./b".toList = ["a".toList, ".".toList, "b".toList] ∧
      "a/./b".toList = mkPath false ["a".toList, ".".toList, "b".toList] ∧
      (freshWorld 0o755).fs.nodes (freshWorld 0o755).fs.cwd = some (.dir 0o755) ∧
      (OS.CreateDirectory (freshWorld 0o755) "a/./b".toList 0o755).1 = false ∧
      (OS.CreateDirectory (freshWorld 0o755) "a/./b".toList 0o755).2.fs.nodes
        ["a".toList, "b".toList] = none) ∧
    ((OS.CreateDirectory (freshWorld 0o755) "a/b".toList 0o500).1 = false ∧
      (OS.CreateDirectory (freshWorld 0o755) "a/b".toList 0o500).2.fs.nodes
        ["a".toList, "b".toList] = none) := by
  have hdot := CreateDirectory_parent_fails (rootOnly 0o755) _ "a/./b".toList 0o755 3
    (by decide) rfl (by decide)
    (CreateDirectory_retry_fails (rootOnly 0o755) _ "a/.".toList 0o755 1 EEXIST (by decide) rfl
      (by decide)
      (CreateDirectory_fresh_a 0o755 0o755 (by decide) (by decide)) rfl)
    (freshWorld 0o755) rfl
  have hmode := CreateDirectory_retry_fails (rootOnly 0o755) _ "a/b".toList 0o500 1 EACCES
    (by decide) rfl (by decide)
    (CreateDirectory_fresh_a 0o755 0o500 (by decide) (by decide)) rfl
    (freshWorld 0o755) rfl
  refine ⟨⟨by decide, by decide, rfl, hdot.1, ?_⟩, hmode.1, ?_⟩
  · rw [hdot.2]; rfl
  · rw [hmode.2]; rfl

/-- C2, as the code has it: for a well-formed path (non-empty components separated by single
`/`, absolute or relative, no trailing separator) whose missing levels `ms` are entry names
below a directory the caller may write to and search, and, when two or more levels are missing,
for a mode that lets the owner write and search: calling `OS::CreateDirectory(p, mode)` twice
in a row returns true both times, and the second call issues one `stat`, no `mkdir`, and leaves
the file system exactly as the first call left it. -/
theorem CreateDirectory_idempotent (w : World) (abs : Bool) (pre ms : List Name) (D : Loc)
    (m0 mode : Nat)
    (hpc : ∀ x ∈ pre, IsComponent x) (hms : ∀ x ∈ ms, IsEntryName x) (hne : pre ++ ms ≠ [])
    (hpre : walkN w.fs true SYMLOOP_MAX (w.fs.startLoc abs) pre = .ok (.found D (.dir m0)))
    (hmiss : ∀ L ∈ createdLocs D ms, w.fs.nodes L = none)
    (hw0 : ms ≠ [] → m0 &&& S_IWUSR ≠ 0 ∧ m0 &&& S_IXUSR ≠ 0)
    (hmode : 2 ≤ ms.length → mode &&& S_IWUSR ≠ 0 ∧ mode &&& S_IXUSR ≠ 0) :
    (OS.CreateDirectory w (mkPath abs (pre ++ ms)) mode).1 = true ∧
      (OS.CreateDirectory (OS.CreateDirectory w (mkPath abs (pre ++ ms)) mode).2
        (mkPath abs (pre ++ ms)) mode).1 = true ∧
      (OS.CreateDirectory (OS.CreateDirectory w (mkPath abs (pre ++ ms)) mode).2
        (mkPath abs (pre ++ ms)) mode).2.fs =
        (OS.CreateDirectory w (mkPath abs (pre ++ ms)) mode).2.fs ∧
      (OS.CreateDirectory (OS.CreateDirectory w (mkPath abs (pre ++ ms)) mode).2
        (mkPath abs (pre ++ ms)) mode).2.trace =
        (OS.CreateDirectory w (mkPath abs (pre ++ ms)) mode).2.trace ++
          [.enter (mkPath abs (pre ++ ms)) mode, .statCall (mkPath abs (pre ++ ms))] ∧
      mkdirCalls ((OS.CreateDirectory (OS.CreateDirectory w (mkPath abs (pre ++ ms)) mode).2
        (mkPath abs (pre ++ ms)) mode).2.trace.drop
          (OS.CreateDirectory w (mkPath abs (pre ++ ms)) mode).2.trace.length) = [] := by
  obtain ⟨h1, h2⟩ := CreateDirectory_core w.fs abs pre D m0 mode hpre hpc ms hms hmiss hw0
    hmode hne w rfl
  have hlen : 1 ≤ (pre ++ ms).length := by
    cases hl : pre ++ ms with
    | nil => exact absurd hl hne
    | cons _ _ => simp
  obtain ⟨loc, m, hres⟩ := levels_are_directories w.fs abs pre ms D m0 mode hpre hpc hms
    hmiss (fun h => (hw0 h).2) (fun h => (hmode h).2) (pre ++ ms).length hlen (le_refl _)
  rw [List.take_length, ← h2] at hres
  have hde : (OS.DirectoryExists (OS.CreateDirectory w (mkPath abs (pre ++ ms)) mode).2
      (mkPath abs (pre ++ ms))).1 = true := by
    rw [DirectoryExists_of_dir _ _ loc m hres]
  obtain ⟨h3, h4, h5⟩ := CreateDirectory_present_fs _ (mkPath abs (pre ++ ms)) mode hde
  refine ⟨h1, h3, h4, h5, ?_⟩
  rw [h5, List.drop_left]
  rfl

/-- C2 at the relative path `a/b` in a file system that holds only a writable root directory,
which is the working directory. -/
theorem CreateDirectory_idempotent_witness :
    (OS.CreateDirectory (freshWorld 0o755) "a/b".toList 0o755).1 = true ∧
      (OS.CreateDirectory (OS.CreateDirectory (freshWorld 0o755) "a/b".toList 0o755).2
        "a/b".toList 0o755).1 = true ∧
      (OS.CreateDirectory (OS.CreateDirectory (freshWorld 0o755) "a/b".toList 0o755).2
        "a/b".toList 0o755).2.fs =
        (OS.CreateDirectory (freshWorld 0o755) "a/b".toList 0o755).2.fs ∧
      mkdirCalls ((OS.CreateDirectory (OS.CreateDirectory (freshWorld 0o755) "a/b".toList
        0o755).2 "a/b".toList 0o755).2.trace.drop
          (OS.CreateDirectory (freshWorld 0o755) "a/b".toList 0o755).2.trace.length) = [] := by
  have h := CreateDirectory_idempotent (freshWorld 0o755) false [] ["a".toList, "b".toList] []
    0o755 0o755 (by simp) (by simp [IsEntryName, IsComponent, dot, dotdot]) (by simp) rfl
    (by simp [createdLocs, freshWorld, rootOnly])
    (fun _ => ⟨by decide, by decide⟩) (fun _ => ⟨by decide, by decide⟩)
  exact ⟨h.1, h.2.1, h.2.2.1, h.2.2.2.2⟩

/-- C2 fails as stated. In a file system that holds only a writable root directory, which is the
working directory, the path `a/b/` (relative, with a trailing separator) names a tree that does
not exist yet; the first `OS::CreateDirectory("a/b/", 0755)` returns false although it has
created `a` and `a/b` (its second `mkdir("a/b/")` fails with `EEXIST`), and only the second call
returns true. With the mode `0500` the first call on `a/b` returns false too. -/
theorem CreateDirectory_idempotent_counterexample :
    ((freshWorld 0o755).fs.nodes (freshWorld 0o755).fs.cwd = some (.dir 0o755) ∧
      (freshWorld 0o755).fs.nodes ["a".toList] = none ∧
      (OS.CreateDirectory (freshWorld 0o755) "a/b/".toList 0o755).1 = false ∧
      (OS.CreateDirectory (freshWorld 0o755) "a/b/".toList 0o755).2.fs.nodes
        ["a".toList, "b".toList] = some (.dir 0o755) ∧
      (OS.CreateDirectory (OS.CreateDirectory (freshWorld 0o755) "a/b/".toList 0o755).2
        "a/b/".toList 0o755).1 = true) ∧
    (OS.CreateDirectory (freshWorld 0o755) "a/b".toList 0o500).1 = false := by
  have hsub : ∀ w1 : World, w1.fs = rootOnly 0o755 →
      (OS.CreateDirectory w1 (mkPath false ["a".toList, "b".toList]) 0o755).1 = true ∧
        (OS.CreateDirectory w1 (mkPath false ["a".toList, "b".toList]) 0o755).2.fs =
          (rootOnly 0o755).withDirs (createdLocs [] ["a".toList, "b".toList]) 0o755 :=
    fun w1 hw1 => CreateDirectory_core (rootOnly 0o755) false [] [] 0o755 0o755 rfl (by simp)
      ["a".toList, "b".toList] (by simp [IsEntryName, IsComponent, dot, dotdot])
      (by simp [createdLocs, rootOnly]) (fun _ => ⟨by decide, by decide⟩)
      (fun _ => ⟨by decide, by decide⟩) (by simp) w1 hw1
  have hfirst := CreateDirectory_retry_fails (rootOnly 0o755) _ "a/b/".toList 0o755 3 EEXIST
    (by decide) rfl (by decide) hsub rfl (freshWorld 0o755) rfl
  have hsecond := CreateDirectory_present_fs
    (OS.CreateDirectory (freshWorld 0o755) "a/b/".toList 0o755).2 "a/b/".toList 0o755
    (by rw [DirectoryExists_fst, hfirst.2]; decide)
  have hmode := CreateDirectory_retry_fails (rootOnly 0o755) _ "a/b".toList 0o500 1 EACCES
    (by decide) rfl (by decide)
    (CreateDirectory_fresh_a 0o755 0o500 (by decide) (by decide)) rfl
    (freshWorld 0o755) rfl
  refine ⟨⟨rfl, rfl, hfirst.1, ?_, hsecond.1⟩, hmode.1⟩
  rw [hfirst.2]
  rfl

/-! ## Size of a file behind a symbolic link -/

/-- C8, as the code has it: `OS::GetFileSizeBytes` calls `stat`, which follows a symbolic link
in the last position. For a path that is a symbolic link to an existing regular file the result
is the size of that file; the length of the link text is what `lstat` would report. -/
theorem GetFileSizeBytes_follows_link (w : World) (name : CStr) (loc loc2 : Loc) (t : CStr)
    (ino : Nat) (i : Inode)
    (hlink : w.fs.resolve false name = .ok (.found loc (.lnk t)))
    (hfile : w.fs.resolve true name = .ok (.found loc2 (.reg ino)))
    (hino : w.fs.inodes[ino]? = some i) :
    (OS.GetFileSizeBytes w name).1 = i.data.length ∧
      (∃ st, w.fs.lstat name = .ok st ∧ S_ISLNK st.st_mode = true ∧ st.st_size = t.length) ∧
      (∃ st, w.fs.stat name = .ok st ∧ S_ISREG st.st_mode = true ∧
        st.st_size = i.data.length) := by
  have hstat : w.fs.stat name =
      .ok { st_mode := S_IFREG ||| (i.mode &&& ALLPERMS), st_size := i.data.length } := by
    simp only [FS.stat, hfile, FS.statNode, hino]
  have hlnk : S_ISLNK (S_IFLNK ||| 0o777) = true := by decide
  refine ⟨?_, ⟨{ st_mode := S_IFLNK ||| 0o777, st_size := t.length }, ?_, hlnk, rfl⟩,
    _, hstat, ?_, rfl⟩
  · rw [GetFileSizeBytes_ok w name _ hstat]
  · simp only [FS.lstat, hlink, FS.statNode]
  · exact (statNode_reg w.fs ino _ (by simp only [FS.statNode, hino])).1

/-- C8 at the link `/l` of `linkFS`: the result is 5, the size of `/f`. -/
theorem GetFileSizeBytes_follows_link_witness :
    (OS.GetFileSizeBytes linkWorld "/l".toList).1 = 5 ∧
      (∃ st, linkWorld.fs.lstat "/l".toList = .ok st ∧ S_ISLNK st.st_mode = true ∧
        st.st_size = 2) := by
  have h := GetFileSizeBytes_follows_link linkWorld "/l".toList ["l".toList] ["f".toList]
    "/f".toList 0 { mode := 0o644, data := [104, 101, 108, 108, 111] } rfl rfl rfl
  exact ⟨h.1, h.2.1⟩

/-- C8 fails as stated: in `linkFS` the path `/l` is a symbolic link (as `lstat` shows) with the
two-character text `/f`, which names an existing regular file of five bytes, and
`OS::GetFileSizeBytes("/l")` returns 5, not 2. -/
theorem GetFileSizeBytes_symlink_counterexample :
    linkWorld.fs.nodes ["l".toList] = some (.lnk "/f".toList) ∧
      linkWorld.fs.lstat "/l".toList = .ok { st_mode := S_IFLNK ||| 0o777, st_size := 2 } ∧
      S_ISLNK (S_IFLNK ||| 0o777) = true ∧
      linkWorld.fs.stat "/f".toList = .ok { st_mode := S_IFREG ||| 0o644, st_size := 5 } ∧
      S_ISREG (S_IFREG ||| 0o644) = true ∧
      (OS.GetFileSizeBytes linkWorld "/l".toList).1 = 5 ∧
      (OS.GetFileSizeBytes linkWorld "/l".toList).1 ≠ ("/f".toList.length : Int) := by
  refine ⟨rfl, rfl, by decide, rfl, by decide, by decide, by decide⟩

/-! ## Replacing a file -/

/-- After the entry of a regular file has been removed, the walk that found the file reports
the entry absent in its directory. -/
theorem walkWith_removed (fs fs' : FS) (loc : Loc) (ino : Nat)
    (hloc : fs.nodes loc = some (.reg ino))
    (hnodes : ∀ q, fs'.nodes q = if q = loc then none else fs.nodes q)
    (k k' : Loc → List Name → Except Nat Res) (fl' : Bool)
    (hk : ∀ s cs, k s cs = .ok (.found loc (.reg ino)) →
      ∃ parent c, loc = parent ++ [c] ∧ k' s cs = .ok (.absent parent c)) :
    ∀ (cs : List Name) (cur : Loc), walkWith fs k false cur cs = .ok (.found loc (.reg ino)) →
      ∃ parent c, loc = parent ++ [c] ∧ walkWith fs' k' fl' cur cs = .ok (.absent parent c) := by
  have hother : ∀ q n, fs.nodes q = some n → (∀ j, n ≠ .reg j) → fs'.nodes q = some n := by
    intro q n hq hn
    have : q ≠ loc := by
      intro hh
      rw [hh, hloc] at hq
      cases hq
      exact hn ino rfl
    rw [hnodes, if_neg this, hq]
  intro cs
  induction cs with
  | nil =>
    intro cur h
    rw [walkWith_nil] at h
    split at h
    · cases h
    · cases h
    · cases h
  | cons c rest ih =>
    intro cur h
    rw [walkWith_cons] at h
    split at h
    · rename_i m hm
      have hm' := hother _ _ hm (fun j hj => by cases hj)
      split at h
      · cases h
      · rename_i hx
        split at h
        · rename_i hdot
          obtain ⟨p, c0, hp, hw⟩ := ih _ h
          refine ⟨p, c0, hp, ?_⟩
          rw [walkWith_cons, hm']
          simp only [hx, hdot, if_true, if_false]
          exact hw
        · rename_i hdot
          split at h
          · rename_i hdd
            obtain ⟨p, c0, hp, hw⟩ := ih _ h
            refine ⟨p, c0, hp, ?_⟩
            rw [walkWith_cons, hm']
            simp only [hx, hdot, hdd, if_true, if_false]
            exact hw
          · rename_i hdd
            split at h
            · split at h <;> cases h
            · rename_i m2 hn
              obtain ⟨p, c0, hp, hw⟩ := ih _ h
              refine ⟨p, c0, hp, ?_⟩
              rw [walkWith_step fs' k' fl' cur c rest m hm' hx hdot hdd,
                hother _ _ hn (fun j hj => by cases hj)]
              exact hw
            · rename_i i hn
              split at h
              · rename_i hr
                cases h
                refine ⟨cur, c, rfl, ?_⟩
                rw [walkWith_step fs' k' fl' cur c rest m hm' hx hdot hdd, hnodes, if_pos rfl]
                simp [hr]
              · cases h
            · rename_i t hn
              split at h
              · cases h
              · rename_i hc
                have hrest : rest ≠ [] := fun hr => hc ⟨hr, rfl⟩
                split at h
                · cases h
                · rename_i ht
                  obtain ⟨p, c0, hp, hw⟩ := hk _ _ h
                  refine ⟨p, c0, hp, ?_⟩
                  rw [walkWith_step fs' k' fl' cur c rest m hm' hx hdot hdd,
                    hother _ _ hn (fun j hj => by cases hj)]
                  simp only [hrest, false_and, ht, if_false]
                  exact hw
    · cases h
    · cases h

theorem walkN_removed (fs fs' : FS) (loc : Loc) (ino : Nat)
    (hloc : fs.nodes loc = some (.reg ino))
    (hnodes : ∀ q, fs'.nodes q = if q = loc then none else fs.nodes q) (fl' : Bool) (n : Nat) :
    ∀ (cs : List Name) (cur : Loc), walkN fs false n cur cs = .ok (.found loc (.reg ino)) →
      ∃ parent c, loc = parent ++ [c] ∧ walkN fs' fl' n cur cs = .ok (.absent parent c) := by
  induction n with
  | zero =>
    intro cs cur h
    exact walkWith_removed fs fs' loc ino hloc hnodes _ _ fl' (fun _ _ hh => by cases hh) cs cur h
  | succ n ih =>
    intro cs cur h
    exact walkWith_removed fs fs' loc ino hloc hnodes _ _ fl' (fun s cs' hh => ih cs' s hh) cs cur h

/-- After a regular file has been entered where a walk reported an absent entry, the same walk
finds the file. -/
theorem walkWith_inserted (fs fs' : FS) (parent : Loc) (c : Name) (j : Nat)
    (hnone : fs.nodes (parent ++ [c]) = none)
    (hnodes : ∀ q, fs'.nodes q = if q = parent ++ [c] then some (.reg j) else fs.nodes q)
    (k k' : Loc → List Name → Except Nat Res) (fl : Bool)
    (hk : ∀ s cs, k s cs = .ok (.absent parent c) →
      k' s cs = .ok (.found (parent ++ [c]) (.reg j))) :
    ∀ (cs : List Name) (cur : Loc), walkWith fs k fl cur cs = .ok (.absent parent c) →
      walkWith fs' k' fl cur cs = .ok (.found (parent ++ [c]) (.reg j)) := by
  have hother : ∀ q n, fs.nodes q = some n → fs'.nodes q = some n := by
    intro q n hq
    have : q ≠ parent ++ [c] := by
      intro hh
      rw [hh, hnone] at hq
      cases hq
    rw [hnodes, if_neg this, hq]
  intro cs
  induction cs with
  | nil =>
    intro cur h
    rw [walkWith_nil] at h
    split at h <;> cases h
  | cons x rest ih =>
    intro cur h
    rw [walkWith_cons] at h
    split at h
    · rename_i m hm
      have hm' := hother _ _ hm
      split at h
      · cases h
      · rename_i hx
        split at h
        · rename_i hdot
          rw [walkWith_cons, hm']
          simp only [hx, hdot, if_true, if_false]
          exact ih _ h
        · rename_i hdot
          split at h
          · rename_i hdd
            rw [walkWith_cons, hm']
            simp only [hx, hdot, hdd, if_true, if_false]
            exact ih _ h
          · rename_i hdd
            rw [walkWith_step fs' k' fl cur x rest m hm' hx hdot hdd]
            split at h
            · rename_i hn
              split at h
              · rename_i hr
                cases h
                rw [hnodes, if_pos rfl]
                simp [hr]
              · cases h
            · rename_i m2 hn
              rw [hother _ _ hn]
              exact ih _ h
            · split at h <;> cases h
            · rename_i t hn
              rw [hother _ _ hn]
              split at h
              · cases h
              · rename_i hc
                split at h
                · cases h
                · rename_i ht
                  simp only [hc, ht, if_false]
                  exact hk _ _ h
    · cases h
    · cases h

theorem walkN_inserted (fs fs' : FS) (parent : Loc) (c : Name) (j : Nat)
    (hnone : fs.nodes (parent ++ [c]) = none)
    (hnodes : ∀ q, fs'.nodes q = if q = parent ++ [c] then some (.reg j) else fs.nodes q)
    (fl : Bool) (n : Nat) :
    ∀ (cs : List Name) (cur : Loc), walkN fs fl n cur cs = .ok (.absent parent c) →
      walkN fs' fl n cur cs = .ok (.found (parent ++ [c]) (.reg j)) := by
  induction n with
  | zero =>
    intro cs cur h
    exact walkWith_inserted fs fs' parent c j hnone hnodes _ _ fl (fun _ _ hh => by cases hh)
      cs cur h
  | succ n ih =>
    intro cs cur h
    exact walkWith_inserted fs fs' parent c j hnone hnodes _ _ fl (fun s cs' hh => ih cs' s hh)
      cs cur h

theorem resolve_found_reg (fs : FS) (fl : Bool) (name : CStr) (loc : Loc) (ino : Nat)
    (h : fs.resolve fl name = .ok (.found loc (.reg ino))) :
    trailingSlash name = false ∧ name ≠ [] ∧
      walkN fs fl SYMLOOP_MAX (if name.head? = some '/' then [] else fs.cwd) (components name)
        = .ok (.found loc (.reg ino)) := by
  by_cases hn : name = []
  · simp [FS.resolve, hn] at h
  · simp only [FS.resolve, hn, if_false] at h
    cases ht : trailingSlash name with
    | true =>
      rw [ht, Bool.or_true] at h
      cases hr : walkN fs true SYMLOOP_MAX
          (if name.head? = some '/' then [] else fs.cwd) (components name) with
      | error e => simp [hr] at h
      | ok r =>
        cases r with
        | absent p c => simp [hr] at h
        | found l node => cases node <;> simp [hr] at h
    | false =>
      rw [ht, Bool.or_false] at h
      cases hr : walkN fs fl SYMLOOP_MAX
          (if name.head? = some '/' then [] else fs.cwd) (components name) with
      | error e => simp [hr] at h
      | ok r =>
        cases r with
        | absent p c => simp [hr] at h
        | found l node =>
          cases node with
          | dir m => simp [hr] at h
          | reg j =>
            simp only [hr, Bool.false_eq_true, if_false, Except.ok.injEq, Res.found.injEq,
              Node.reg.injEq] at h
            obtain ⟨h1, h2⟩ := h
            subst h1
            subst h2
            exact ⟨rfl, hn, rfl⟩
          | lnk t => simp [hr] at h

theorem resolve_of_walk (fs : FS) (fl : Bool) (name : CStr) (hn : name ≠ [])
    (ht : trailingSlash name = false) (r : Res)
    (h : walkN fs fl SYMLOOP_MAX (if name.head? = some '/' then [] else fs.cwd)
      (components name) = .ok r) :
    fs.resolve fl name = .ok r := by
  simp only [FS.resolve, hn, if_false, ht, Bool.or_false, h]
  cases r with
  | absent p c => rfl
  | found l node => cases node <;> simp

/-- Removing the entry of a regular file makes its path resolve to an absent entry. -/
theorem resolve_removed (fs fs' : FS) (name : CStr) (loc : Loc) (ino : Nat) (fl' : Bool)
    (h : fs.resolve false name = .ok (.found loc (.reg ino)))
    (hnodes : ∀ q, fs'.nodes q = if q = loc then none else fs.nodes q)
    (hcwd : fs'.cwd = fs.cwd) :
    ∃ parent c, loc = parent ++ [c] ∧ fs'.resolve fl' name = .ok (.absent parent c) ∧
      trailingSlash name = false := by
  obtain ⟨ht, hn, hw⟩ := resolve_found_reg fs false name loc ino h
  have hloc : fs.nodes loc = some (.reg ino) := walkN_sound fs false _ _ _ _ hw
  obtain ⟨p, c, hp, hw'⟩ := walkN_removed fs fs' loc ino hloc hnodes fl' _ _ _ hw
  refine ⟨p, c, hp, ?_, ht⟩
  apply resolve_of_walk fs' fl' name hn ht
  rw [hcwd]
  exact hw'

/-- Entering a regular file where the path resolved to an absent entry makes the path resolve
to that file. -/
theorem resolve_inserted (fs fs' : FS) (name : CStr) (parent : Loc) (c : Name) (j : Nat)
    (fl : Bool) (ht : trailingSlash name = false)
    (h : fs.resolve fl name = .ok (.absent parent c))
    (hnodes : ∀ q, fs'.nodes q = if q = parent ++ [c] then some (.reg j) else fs.nodes q)
    (hcwd : fs'.cwd = fs.cwd) :
    fs'.resolve fl name = .ok (.found (parent ++ [c]) (.reg j)) := by
  have hn : name ≠ [] := by
    intro hh
    simp [FS.resolve, hh] at h
  have hw : walkN fs fl SYMLOOP_MAX (if name.head? = some '/' then [] else fs.cwd)
      (components name) = .ok (.absent parent c) := by
    simp only [FS.resolve, hn, if_false, ht, Bool.or_false] at h
    cases hr : walkN fs fl SYMLOOP_MAX (if name.head? = some '/' then [] else fs.cwd)
        (components name) with
    | error e => simp [hr] at h
    | ok r =>
      cases r with
      | absent p x =>
        simp only [hr, Except.ok.injEq, Res.absent.injEq] at h
        rw [h.1, h.2]
      | found l node => cases node <;> simp [hr] at h
  have hnone : fs.nodes (parent ++ [c]) = none := (walkN_sound fs fl _ _ _ _ hw).1
  apply resolve_of_walk fs' fl name hn ht
  rw [hcwd]
  exact walkN_inserted fs fs' parent c j hnone hnodes fl _ _ _ hw

theorem unlink_of_reg (fs : FS) (name : CStr) (loc : Loc) (ino : Nat)
    (h : fs.resolve false name = .ok (.found loc (.reg ino)))
    (hw : fs.mayWrite loc.dropLast = true) :
    fs.unlink name = .ok (fs.setNode loc none) := by
  simp [FS.unlink, h, hw]

theorem open_creates (fs : FS) (name : CStr) (flags mode : Nat) (parent : Loc) (c : Name)
    (hnf : (flags &&& O_NOFOLLOW == 0) = true) (hcr : flags &&& O_CREAT ≠ 0)
    (ht : trailingSlash name = false)
    (h : fs.resolve true name = .ok (.absent parent c))
    (hw : fs.mayWrite parent = true) :
    fs.open name flags mode = .ok (fs.ofiles.length,
      { nodes := fun q => if q = parent ++ [c] then some (.reg fs.inodes.length) else fs.nodes q
        inodes := fs.inodes ++ [{ mode := mode &&& ALLPERMS, data := [] }]
        cwd := fs.cwd
        ofiles := fs.ofiles ++ [.file fs.inodes.length] }) := by
  simp only [FS.open, hnf, h, hcr, ht, hw, if_true, if_false, Bool.false_eq_true]

theorem sys_unlink_ok (w : World) (name : CStr) (fs1 : FS) (h : w.fs.unlink name = .ok fs1) :
    sys_unlink w name = (0, { w.log (.unlinkCall name) with fs := fs1 }) := by
  simp only [sys_unlink, h]

theorem sys_open_ok (w : World) (name : CStr) (flags mode fd : Nat) (fs1 : FS)
    (h : w.fs.open name flags mode = .ok (fd, fs1)) :
    sys_open w name flags mode =
      ((fd : Int), { w.log (.openCall name flags mode) with fs := fs1 }) := by
  simp only [sys_open, h]

/-- C4: for a path that names a non-empty regular file in a directory the caller may write to,
`OS::CreateEmptyFile(p)` returns an opened handle; afterwards the path names a new, empty file
(`OS::GetFileSizeBytes(p)` is 0) with an inode of its own, the inode that was linked at the
path still holds its old, non-empty content, and the descriptors that were open stay as they
were: the entry was unlinked and a file created, nothing was truncated in place. -/
theorem CreateEmptyFile_replaces (auto_flush_default : Bool) (w : World) (name : CStr)
    (loc : Loc) (ino : Nat) (i : Inode)
    (hres : w.fs.resolve false name = .ok (.found loc (.reg ino)))
    (hino : w.fs.inodes[ino]? = some i) (hdata : i.data ≠ [])
    (hw : w.fs.mayWrite loc.dropLast = true) :
    ∃ (f : File) (w' : World),
      OS.CreateEmptyFile auto_flush_default w name = .ret (some f, w') ∧
        f.IsOpened = true ∧
        (OS.GetFileSizeBytes w' name).1 = 0 ∧
        w'.fs.inodes[ino]? = some i ∧ (0 : Int) < i.data.length ∧
        (∃ ino' : Nat, ino' ≠ ino ∧ w'.fs.nodes loc = some (.reg ino') ∧
          w'.fs.inodes[ino']? = some { mode := 0o644, data := [] }) ∧
        (∀ (fd : Nat) (o : OFile), w.fs.ofiles[fd]? = some o → w'.fs.ofiles[fd]? = some o) ∧
        w'.trace = w.trace ++
          [.unlinkCall name, .openCall name (O_CREAT ||| (O_RDWR ||| O_TRUNC)) 0o644] := by
  have hu := unlink_of_reg w.fs name loc ino hres hw
  obtain ⟨parent, c, hloc, hres1, ht⟩ := resolve_removed w.fs (w.fs.setNode loc none) name loc
    ino true hres (fun _ => rfl) rfl
  have hpne : parent ≠ loc := by
    intro hh
    have := congrArg List.length hloc
    rw [← hh] at this
    simp at this
  have hw1 : (w.fs.setNode loc none).mayWrite parent = true := by
    have hd : loc.dropLast = parent := by rw [hloc, List.dropLast_concat]
    rw [hd] at hw
    simpa [FS.mayWrite, FS.setNode, hpne] using hw
  have ho := open_creates (w.fs.setNode loc none) name (O_CREAT ||| (O_RDWR ||| O_TRUNC)) 0o644
    parent c (by decide) (by decide) ht hres1 hw1
  have hso := sys_open_ok { w.log (.unlinkCall name) with fs := w.fs.setNode loc none } name
    (O_CREAT ||| (O_RDWR ||| O_TRUNC)) 0o644 _ _ ho
  have hlt : ino < w.fs.inodes.length := by
    rcases Nat.lt_or_ge ino w.fs.inodes.length with h | h
    · exact h
    · rw [List.getElem?_eq_none h] at hino
      cases hino
  have hcu : (!((O_CREAT ||| (O_RDWR ||| O_TRUNC)) &&& O_ACCMODE == O_RDONLY) &&
      auto_flush_default) = auto_flush_default := by
    have : ((O_CREAT ||| (O_RDWR ||| O_TRUNC)) &&& O_ACCMODE == O_RDONLY) = false := by decide
    rw [this]
    simp
  have hmode : (S_IRUSR ||| S_IWUSR ||| S_IRGRP ||| S_IROTH : Nat) = 0o644 := by decide
  have hperm : (0o644 &&& ALLPERMS : Nat) = 0o644 := by decide
  refine ⟨
    { path := name
      flags := O_CREAT ||| (O_RDWR ||| O_TRUNC)
      mode := 0o644
      check_usage := auto_flush_default
      fd := (w.fs.ofiles.length : Int) },
    { fs :=
        { nodes := fun q =>
            if q = parent ++ [c] then some (.reg w.fs.inodes.length)
            else (w.fs.setNode loc none).nodes q
          inodes := w.fs.inodes ++ [{ mode := 0o644 &&& ALLPERMS, data := [] }]
          cwd := w.fs.cwd
          ofiles := w.fs.ofiles ++ [.file w.fs.inodes.length] }
      errno := w.errno
      trace := w.trace ++ [.unlinkCall name] ++
        [.openCall name (O_CREAT ||| (O_RDWR ||| O_TRUNC)) 0o644] },
    ?_, ?_, ?_, ?_, ?_, ⟨w.fs.inodes.length, ?_, ?_, ?_⟩, ?_, ?_⟩
  · simp only [OS.CreateEmptyFile, art.CreateEmptyFile, OS.OpenFileWithFlags,
      sys_unlink_ok w name _ hu, File.create, hcu, hmode, hso, File.IsOpened]
    simp [World.log, FS.setNode]
  · simp [File.IsOpened]
  · have hres2 := resolve_inserted (w.fs.setNode loc none)
      { nodes := fun q =>
          if q = parent ++ [c] then some (.reg w.fs.inodes.length)
          else (w.fs.setNode loc none).nodes q
        inodes := w.fs.inodes ++ [{ mode := 0o644 &&& ALLPERMS, data := [] }]
        cwd := w.fs.cwd
        ofiles := w.fs.ofiles ++ [.file w.fs.inodes.length] }
      name parent c w.fs.inodes.length true ht hres1 (fun _ => rfl) rfl
    have hstat := GetFileSizeBytes_ok
      { fs :=
          { nodes := fun q =>
              if q = parent ++ [c] then some (.reg w.fs.inodes.length)
              else (w.fs.setNode loc none).nodes q
            inodes := w.fs.inodes ++ [{ mode := 0o644 &&& ALLPERMS, data := [] }]
            cwd := w.fs.cwd
            ofiles := w.fs.ofiles ++ [.file w.fs.inodes.length] }
        errno := w.errno
        trace := w.trace ++ [.unlinkCall name] ++
          [.openCall name (O_CREAT ||| (O_RDWR ||| O_TRUNC)) 0o644] } name
      { st_mode := S_IFREG ||| ((0o644 &&& ALLPERMS) &&& ALLPERMS), st_size := 0 }
      (by
        simp only [FS.stat, hres2, FS.statNode]
        simp)
    exact hstat
  · show (w.fs.inodes ++ [_])[ino]? = some i
    rw [List.getElem?_append_left hlt]
    exact hino
  · have : 0 < i.data.length := List.length_pos.mpr hdata
    exact_mod_cast this
  · exact fun hh => by rw [hh] at hlt; exact Nat.lt_irrefl _ hlt
  · simp [hloc]
  · simp [hperm]
  · intro fd o hfd
    have hlt2 : fd < w.fs.ofiles.length := by
      rcases Nat.lt_or_ge fd w.fs.ofiles.length with h | h
      · exact h
      · rw [List.getElem?_eq_none h] at hfd
        cases hfd
    show (w.fs.ofiles ++ [_])[fd]? = some o
    rw [List.getElem?_append_left hlt2]
    exact hfd
  · simp

/-- C4 at the five-byte file `/f` of `linkFS`. -/
theorem CreateEmptyFile_replaces_witness :
    ∃ (f : File) (w' : World),
      OS.CreateEmptyFile true linkWorld "/f".toList = .ret (some f, w') ∧
        f.IsOpened = true ∧
        (OS.GetFileSizeBytes w' "/f".toList).1 = 0 ∧
        w'.fs.inodes[0]? = some { mode := 0o644, data := [104, 101, 108, 108, 111] } ∧
        w'.fs.nodes ["f".toList] = some (.reg 1) := by
  obtain ⟨f, w', h1, h2, h3, h4, _, ⟨j, _, h6, _⟩, _, _⟩ :=
    CreateEmptyFile_replaces true linkWorld "/f".toList ["f".toList] 0
      { mode := 0o644, data := [104, 101, 108, 108, 111] } rfl rfl (by decide) rfl
  refine ⟨f, w', h1, h2, h3, h4, ?_⟩
  have hfs : w'.fs.nodes ["f".toList] = some (.reg 1) := by
    have h := h1
    simp only [OS.CreateEmptyFile, art.CreateEmptyFile, OS.OpenFileWithFlags] at h
    split at h
    · cases h
    · simp only [Run.ret.injEq, Prod.mk.injEq] at h
      rw [← h.2]
      rfl
  exact hfs

end art
